import Mathlib

/-!
Clone-pruning analysis pass (`tree-dpham34.cc`)

A shallow embedding of the GIMPLE pass `pass_dpham34`: the signature
extractor `get_gimple_signature`, the comparison `compare_functions`, the
per-function entry point `execute` and the finalization `finished`, together
with the file-scope state (`base_signatures`, `clone_signatures`,
`remaining_funcs`) and the text written to `dump_file`.

Modelling conventions.
* A `char *` signature is the list of the bytes of its buffer (values
  `0 .. 255`), terminator included; `strcmp` and `%s` read it up to the first
  zero byte.
* A `std::map<std::string, T>` is the list of its entries in strictly
  ascending key order, which is the order its iteration visits them in.
* `dump_file` is a flag (the stream is open or it is null) and the text written
  to it is kept in the state, one list element per `fprintf` call.
* `remaining_funcs` is an `Int`: the `int` counter is set to a function count
  whenever it is negative and goes down by one per visit, so it stays within
  the range of `int`.
* The number of functions `FOR_EACH_DEFINED_FUNCTION` enumerates is an input of
  every visit, since the host may create functions between two visits.
* `finished_calls` is a ghost counter of the calls of `finished`.
-/

namespace Dpham34

/-! ## Host data: statements, blocks, functions -/

/-- A GIMPLE statement as far as the pass can see it: `gimple_code` reads
`code`; the operands (constants, types, ...) are carried along untouched. -/
structure gimple where
  code : Nat
  operands : List Int
  deriving DecidableEq, Repr

/-- A basic block: its statements in iteration order. -/
abbrev basic_block := List gimple

/-- A function of the unit: its declared name and its blocks in the order
`FOR_EACH_BB_FN` enumerates them. -/
structure function where
  name : String
  body : List basic_block
  deriving DecidableEq, Repr

/-- The ordered instruction-kind sequence of a body: all blocks, flattened. -/
def kinds (body : List basic_block) : List Nat :=
  (body.flatten).map gimple.code

/-- Modelled from the spec: the host's instruction-kind enumeration
(`enum gimple_code`), which is declared outside the files of the pass. The spec
describes the characters `kind + 48` as "a small, fixed alphabet" with "a
sentinel not in that alphabet": a discriminant `k` is a kind of the enumeration
when `k + 48` is a `char` value, that is below 256 (the printable range the spec
mentions lies within). -/
def host_kind (k : Nat) : Prop := k + 48 < 256

instance (k : Nat) : Decidable (host_kind k) :=
  inferInstanceAs (Decidable (k + 48 < 256))

/-! ## Signatures -/

/-- Conversion of an `int` to `char` (the stored byte). -/
def to_char (n : Nat) : Nat := n % 256

/-- The statement loop of one block in `get_gimple_signature`: `codes` holds the
`stmt_cnt` bytes written so far and every statement writes `code + 48` at
index `stmt_cnt - 1` of the buffer grown by one. -/
def signature_block (codes : List Nat) (bb : basic_block) : List Nat :=
  bb.foldl (fun acc stmt => acc ++ [to_char (stmt.code + 48)]) codes

/-- Signature buffer built by `get_gimple_signature`: the written bytes followed
by the terminator stored at index `stmt_cnt`. -/
def get_gimple_signature (fn : function) : List Nat :=
  fn.body.foldl signature_block [] ++ [0]

/-- The C string held by a buffer: the bytes before the first zero byte. -/
def c_str : List Nat → List Nat
  | [] => []
  | b :: bs => if b = 0 then [] else b :: c_str bs

/-- Length of the C string held by a buffer. -/
def strlen (buf : List Nat) : Nat := (c_str buf).length

/-- Byte-wise comparison of two C strings; the end of a buffer reads as the
terminator. -/
def strcmp : List Nat → List Nat → Int
  | [], [] => 0
  | [], b :: _ => - (b : Int)
  | a :: _, [] => (a : Int)
  | a :: as, b :: bs =>
    if a ≠ b then (a : Int) - (b : Int)
    else if a = 0 then 0
    else strcmp as bs

/-- Text printed by `%s` for a signature buffer. -/
def sig_text (sig : List Nat) : String :=
  String.mk ((c_str sig).map Char.ofNat)

/-- Result and dump output of `compare_functions`. -/
def compare_functions (dump_file : Bool) (sig1 sig2 : List Nat) : Bool × List String :=
  let same := decide (strcmp sig1 sig2 = 0)
  let out :=
    if dump_file then
      ["=== Signature for first function: ===\n" ++ sig_text sig1 ++ "\n",
       "=== Signature for second function: ===\n" ++ sig_text sig2 ++ "\n"]
    else []
  (same, out)

/-! ## The ordered maps -/

/-- Key order of `std::map<std::string, T>`: `std::string`'s `operator<`, the
lexicographic order of the character sequences. It is the order `<` of `String`
(`key_lt_iff`), written on the character lists so that it evaluates. -/
def key_lt (a b : String) : Prop := a.data < b.data

instance (a b : String) : Decidable (key_lt a b) :=
  inferInstanceAs (Decidable (a.data < b.data))

theorem key_lt_iff (a b : String) : key_lt a b ↔ a < b :=
  String.lt_iff_toList_lt.symm

/-- Insertion into a key-ordered entry list: a new key goes to its place in
the order, an existing key has its value replaced. -/
def insert_entry {α : Type} (k : String) (v : α) : List (String × α) → List (String × α)
  | [] => [(k, v)]
  | e :: rest =>
    if key_lt k e.1 then (k, v) :: e :: rest
    else if k = e.1 then (k, v) :: rest
    else e :: insert_entry k v rest

/-- Lookup in an entry list. -/
def find_entry {α : Type} (k : String) : List (String × α) → Option α
  | [] => none
  | e :: rest => if e.1 = k then some e.2 else find_entry k rest

/-- Removal of a key from an entry list. -/
def erase_entry {α : Type} (k : String) : List (String × α) → List (String × α)
  | [] => []
  | e :: rest => if e.1 = k then rest else e :: erase_entry k rest

theorem insert_entry_keys {α : Type} (k : String) (v : α) (l : List (String × α))
    (e : String × α) (he : e ∈ insert_entry k v l) : e.1 = k ∨ e ∈ l := by
  induction l with
  | nil =>
    simp only [insert_entry, List.mem_singleton] at he
    exact Or.inl (by rw [he])
  | cons a rest ih =>
    simp only [insert_entry] at he
    split_ifs at he with h1 h2
    · rcases List.mem_cons.1 he with h | h
      · exact Or.inl (by rw [h])
      · exact Or.inr h
    · rcases List.mem_cons.1 he with h | h
      · exact Or.inl (by rw [h])
      · exact Or.inr (List.mem_cons_of_mem _ h)
    · rcases List.mem_cons.1 he with h | h
      · exact Or.inr (by rw [h]; exact List.mem_cons_self _ _)
      · rcases ih h with h' | h'
        · exact Or.inl h'
        · exact Or.inr (List.mem_cons_of_mem _ h')

theorem insert_entry_ordered {α : Type} (k : String) (v : α) (l : List (String × α))
    (hl : l.Pairwise (fun a b => key_lt a.1 b.1)) :
    (insert_entry k v l).Pairwise (fun a b => key_lt a.1 b.1) := by
  induction l with
  | nil => simp [insert_entry]
  | cons a rest ih =>
    rw [List.pairwise_cons] at hl
    simp only [insert_entry]
    split_ifs with h1 h2
    · refine List.pairwise_cons.2 ⟨?_, List.pairwise_cons.2 hl⟩
      intro b hb
      rcases List.mem_cons.1 hb with h | h
      · rw [h]; exact h1
      · exact (key_lt_iff _ _).2 (lt_trans ((key_lt_iff _ _).1 h1) ((key_lt_iff _ _).1 (hl.1 b h)))
    · refine List.pairwise_cons.2 ⟨?_, hl.2⟩
      intro b hb
      show key_lt k b.1
      rw [h2]
      exact hl.1 b hb
    · refine List.pairwise_cons.2 ⟨?_, ih hl.2⟩
      intro b hb
      rcases insert_entry_keys k v rest b hb with h | h
      · rw [h]
        rw [key_lt_iff] at h1 ⊢
        exact lt_of_le_of_ne (not_lt.1 h1) (fun h' => h2 h'.symm)
      · exact hl.1 b h

theorem erase_entry_sublist {α : Type} (k : String) (l : List (String × α)) :
    (erase_entry k l).Sublist l := by
  induction l with
  | nil => exact List.Sublist.refl _
  | cons a rest ih =>
    simp only [erase_entry]
    split_ifs
    · exact List.sublist_cons_self _ _
    · exact ih.cons₂ _

/-- A `std::map` keyed by `std::string`: its entries in strictly ascending key
order. -/
structure StdMap (α : Type) where
  entries : List (String × α)
  ordered : entries.Pairwise (fun a b => key_lt a.1 b.1)

namespace StdMap

/-- The empty map (also the result of `clear()`). -/
def empty {α : Type} : StdMap α := ⟨[], List.Pairwise.nil⟩

/-- Lookup `m.find(k)`: the mapped value, or `none` for `end()`. -/
def find {α : Type} (m : StdMap α) (k : String) : Option α := find_entry k m.entries

/-- Assignment `m[k] = v`. -/
def assign {α : Type} (m : StdMap α) (k : String) (v : α) : StdMap α :=
  ⟨insert_entry k v m.entries, insert_entry_ordered k v m.entries m.ordered⟩

/-- Append `m[k].push_back(x)`: `m[k]` is created empty when the key is new. -/
def push_back {α : Type} (m : StdMap (List α)) (k : String) (x : α) : StdMap (List α) :=
  m.assign k ((m.find k).getD [] ++ [x])

/-- The map without key `k` (used to state properties, not called by the pass). -/
def erase {α : Type} (m : StdMap α) (k : String) : StdMap α :=
  ⟨erase_entry k m.entries, m.ordered.sublist (erase_entry_sublist k m.entries)⟩

theorem eq_of_entries {α : Type} {m m' : StdMap α} (h : m.entries = m'.entries) : m = m' := by
  cases m; cases m'; cases h; rfl

end StdMap

/-! ## The state of the pass -/

/-- File-scope state of the pass plus the text written to `dump_file` and the
ghost counter of `finished` calls. -/
structure State where
  base_signatures : StdMap (List Nat)
  clone_signatures : StdMap (List (List Nat))
  remaining_funcs : Int
  dump : List String
  finished_calls : Nat

/-- State at program start: counter `-1`, both maps empty, nothing written. -/
def State.initial : State :=
  { base_signatures := StdMap.empty, clone_signatures := StdMap.empty,
    remaining_funcs := -1, dump := [], finished_calls := 0 }

/-! ## Finalization -/

/-- Line `PRUNE: <base>`. -/
def prune_line (base : String) : String := "PRUNE: " ++ base ++ "\n"

/-- Line `NOPRUNE: <base>`. -/
def noprune_line (base : String) : String := "NOPRUNE: " ++ base ++ "\n"

/-- Line reporting a clone group without base signature. -/
def no_base_line (base : String) : String :=
  "No base signature found for cloned functions with base: " ++ base ++ "\n"

/-- The loop over `cloneSigs` in `finished`: compares in order and stops at the
first mismatch; returns `all_match` and the text `compare_functions` wrote. -/
def compare_clones (dump_file : Bool) (base_sig : List Nat) :
    List (List Nat) → Bool × List String
  | [] => (true, [])
  | clone_sig :: rest =>
    let r := compare_functions dump_file base_sig clone_sig
    if !r.1 then (false, r.2)
    else
      let r' := compare_clones dump_file base_sig rest
      (r'.1, r.2 ++ r'.2)

/-- One iteration of the loop over `clone_signatures` in `finished` (inside
`if (dump_file)`): the text written for one entry. -/
def group_lines (base_signatures : StdMap (List Nat)) (entry : String × List (List Nat)) :
    List String :=
  match base_signatures.find entry.1 with
  | none => [no_base_line entry.1]
  | some base_sig =>
    let r := compare_clones true base_sig entry.2
    r.2 ++ [if r.1 then prune_line entry.1 else noprune_line entry.1]

/-- Text written by `finished` when `dump_file` is open. -/
def finished_lines (st : State) : List String :=
  ["=== Finished processing functions ===\n"]
    ++ (st.clone_signatures.entries.map (group_lines st.base_signatures)).flatten
    ++ ["\n\n#### End dpham34 diagnostics, starting regular GIMPLE dump ####\n\n\n"]

/-- Finalization `pass_dpham34::finished`: reports when dumping, then frees the
signatures and clears both maps. -/
def finished (dump_file : Bool) (st : State) : State :=
  { base_signatures := StdMap.empty
    clone_signatures := StdMap.empty
    remaining_funcs := st.remaining_funcs
    dump := if dump_file then st.dump ++ finished_lines st else st.dump
    finished_calls := st.finished_calls + 1 }

/-! ## The per-function entry point -/

/-- Position returned by `s.find(".")`: index of the first dot, `none` for `npos`. -/
def find_dot : List Char → Option Nat
  | [] => none
  | c :: cs => if c = '.' then some 0 else (find_dot cs).map (· + 1)

/-- Substring `s.substr(0, pos)`. -/
def substr_to (s : String) (pos : Nat) : String := String.mk (s.data.take pos)

/-- Substring `s.substr(pos)`. -/
def substr_from (s : String) (pos : Nat) : String := String.mk (s.data.drop pos)

/-- Lazy set-up of the counter at the start of `execute`: a negative counter is
replaced by the number of defined functions the host reports now. -/
def init_counter (dump_file : Bool) (defined : Nat) (st : State) : State :=
  if st.remaining_funcs < 0 then
    { st with
      remaining_funcs := (defined : Int)
      dump := st.dump ++
        (if dump_file then
          ["Total functions to process: " ++ toString (defined : Int) ++ "\n"]
         else []) }
  else st

/-- The end of `execute`: decrement, then finalize when the counter is `2`. -/
def count_down (dump_file : Bool) (st : State) : State :=
  let st' := { st with remaining_funcs := st.remaining_funcs - 1 }
  if st'.remaining_funcs = 2 then finished dump_file st' else st'

/-- One visit `pass_dpham34::execute(fn)`; `defined` is the number of functions
`FOR_EACH_DEFINED_FUNCTION` enumerates at this moment. -/
def execute (dump_file : Bool) (defined : Nat) (fn : function) (st : State) : State :=
  let st1 := init_counter dump_file defined st
  let st2 := { st1 with
    dump := st1.dump ++
      (if dump_file then
        ["Function counter so far is: " ++ toString st1.remaining_funcs ++ "\n"]
       else []) }
  if dump_file then
    let s := fn.name
    let sig := get_gimple_signature fn
    match find_dot s.data with
    | none =>
      count_down dump_file { st2 with base_signatures := st2.base_signatures.assign s sig }
    | some pos =>
      let base := substr_to s pos
      let suffix := substr_from s (pos + 1)
      if suffix = "resolver" then
        { st2 with remaining_funcs := st2.remaining_funcs - 1 }
      else
        count_down dump_file { st2 with
          clone_signatures := st2.clone_signatures.push_back base sig
          dump := st2.dump ++
            ["=== Recorded cloned function: " ++ s ++ " (base: " ++ base ++ ") ===\n"] }
  else
    count_down dump_file st2

/-- A sequence of visits, each with the function count the host reports then. -/
def run (dump_file : Bool) : List (Nat × function) → State → State
  | [], st => st
  | v :: rest, st => run dump_file rest (execute dump_file v.1 v.2 st)

/-- Text appended to the dump between two states. -/
def emitted (before after : State) : List String := after.dump.drop before.dump.length

/-! ## Auxiliary definitions used in the statements -/

/-- Value of the counter after the lazy set-up at the start of a visit. -/
def counter_at_entry (defined : Nat) (st : State) : Int :=
  if st.remaining_funcs < 0 then (defined : Int) else st.remaining_funcs

/-- Whether a visit leaves `execute` through the `return 0` of the resolver
branch: `dump_file` is open and the text after the first dot of the name is
`resolver`. -/
def resolver_return (dump_file : Bool) (name : String) : Bool :=
  dump_file &&
    (match find_dot name.data with
     | none => false
     | some pos => decide (substr_from name (pos + 1) = "resolver"))

/-- First two characters of a line, enough to tell the kinds of lines apart. -/
def line_tag (s : String) : List Char := s.data.take 2

/-- Scenario A of the spec: base `foo` with signature `AB`, two clones `AB`. -/
def scenario_A : State :=
  { base_signatures := ⟨[("foo", [65, 66, 0])], List.pairwise_singleton _ _⟩
    clone_signatures := ⟨[("foo", [[65, 66, 0], [65, 66, 0]])], List.pairwise_singleton _ _⟩
    remaining_funcs := 2
    dump := []
    finished_calls := 0 }

/-- Scenario B of the spec: base `foo` with signature `AB`, clones `AB` and `AC`. -/
def scenario_B : State :=
  { base_signatures := ⟨[("foo", [65, 66, 0])], List.pairwise_singleton _ _⟩
    clone_signatures := ⟨[("foo", [[65, 66, 0], [65, 67, 0]])], List.pairwise_singleton _ _⟩
    remaining_funcs := 2
    dump := []
    finished_calls := 0 }

/-- Scenario C of the spec: clones recorded for `bar`, no base `bar`; `foo` as in
scenario A. -/
def scenario_C : State :=
  { base_signatures := ⟨[("foo", [65, 66, 0])], List.pairwise_singleton _ _⟩
    clone_signatures :=
      ⟨[("bar", [[65, 66, 0]]), ("foo", [[65, 66, 0], [65, 66, 0]])], by decide⟩
    remaining_funcs := 2
    dump := []
    finished_calls := 0 }

/-- The three visits of scenario D; `n1` is the number of defined functions
reported at the first visit, `n2` and `n3` the numbers reported later. -/
def scenario_D (n1 n2 n3 : Nat) (b1 b2 b3 : List basic_block) : List (Nat × function) :=
  [(n1, ⟨"foo", b1⟩), (n2, ⟨"foo.resolver", b2⟩), (n3, ⟨"foo.clone1", b3⟩)]

/-- A unit of five functions, counted as 5 at every visit. -/
def unit_of_five : List (Nat × function) :=
  [(5, ⟨"foo", [[⟨6, []⟩]]⟩), (5, ⟨"foo.resolver", []⟩), (5, ⟨"foo.clone1", [[⟨6, []⟩]]⟩),
   (5, ⟨"bar", []⟩), (5, ⟨"main", [[⟨10, []⟩]]⟩)]

/-- State of a visit after the lazy set-up of the counter and the counter line,
before the name is looked at. -/
def entry_state (dump_file : Bool) (defined : Nat) (st : State) : State :=
  { init_counter dump_file defined st with
    dump := (init_counter dump_file defined st).dump ++
      (if dump_file then
        ["Function counter so far is: "
          ++ toString (init_counter dump_file defined st).remaining_funcs ++ "\n"]
       else []) }

/-- Six visits of a unit counted as 5 at the first visit, with other counts
reported at the later visits. -/
def unit_mixed_counts : List (Nat × function) :=
  [(5, ⟨"foo", [[⟨6, []⟩]]⟩), (9, ⟨"foo.resolver", []⟩), (2, ⟨"foo.clone1", [[⟨6, []⟩]]⟩),
   (0, ⟨"bar", []⟩), (5, ⟨"main", [[⟨10, []⟩]]⟩), (7, ⟨"late", []⟩)]

/-- States the pass can be in: the initial state and what visits by `execute`
make of it, each visit with its own `dump_file` flag, function count and
function. -/
inductive Reachable : State → Prop
  | initial : Reachable State.initial
  | visit (dump_file : Bool) (defined : Nat) (fn : function) (st : State) :
      Reachable st → Reachable (execute dump_file defined fn st)

/-- Every clone list of the table is non-empty. -/
def clone_lists_nonempty (st : State) : Prop :=
  ∀ e ∈ st.clone_signatures.entries, e.2 ≠ []

/-- A state with a base signature for `main` and no clone group. -/
def scenario_base_only : State :=
  { base_signatures := ⟨[("main", [58, 0])], List.pairwise_singleton _ _⟩
    clone_signatures := StdMap.empty
    remaining_funcs := 2
    dump := []
    finished_calls := 0 }

/-! ## Facts about signatures -/

theorem signature_block_eq (codes : List Nat) (bb : basic_block) :
    signature_block codes bb = codes ++ bb.map (fun s => to_char (s.code + 48)) := by
  induction bb generalizing codes with
  | nil => simp [signature_block]
  | cons s rest ih =>
    have h := ih (codes ++ [to_char (s.code + 48)])
    simp only [signature_block, List.foldl_cons] at h ⊢
    rw [h]
    simp

theorem foldl_signature_block (body : List basic_block) (codes : List Nat) :
    body.foldl signature_block codes
      = codes ++ (kinds body).map (fun k => to_char (k + 48)) := by
  induction body generalizing codes with
  | nil => simp [kinds]
  | cons bb rest ih =>
    rw [List.foldl_cons, ih, signature_block_eq]
    simp [kinds, List.map_append, List.map_map, Function.comp_def]

theorem get_gimple_signature_eq (fn : function) :
    get_gimple_signature fn = (kinds fn.body).map (fun k => to_char (k + 48)) ++ [0] := by
  unfold get_gimple_signature
  rw [foldl_signature_block]
  simp

theorem strcmp_eq_zero_iff (a b : List Nat) : strcmp a b = 0 ↔ c_str a = c_str b := by
  induction a generalizing b with
  | nil =>
    cases b with
    | nil => simp [strcmp, c_str]
    | cons y ys =>
      by_cases hy : y = 0
      · simp [strcmp, c_str, hy]
      · simp [strcmp, c_str, hy]
  | cons x xs ih =>
    cases b with
    | nil =>
      by_cases hx : x = 0
      · simp [strcmp, c_str, hx]
      · simp [strcmp, c_str, hx]
    | cons y ys =>
      by_cases hxy : x = y
      · subst hxy
        by_cases hx : x = 0
        · simp [strcmp, c_str, hx]
        · simp [strcmp, c_str, hx, ih]
      · have hne : (x : Int) - (y : Int) ≠ 0 := by
          intro h
          apply hxy
          omega
        by_cases hx : x = 0
        · have hy : y ≠ 0 := fun h => hxy (by rw [hx, h])
          simp [strcmp, c_str, hx, hy]
          omega
        · by_cases hy : y = 0
          · simp [strcmp, c_str, hx, hy]
          · simp [strcmp, c_str, hx, hy, hxy, hne]

theorem c_str_append_zero (l : List Nat) (h : ∀ b ∈ l, b ≠ 0) : c_str (l ++ [0]) = l := by
  induction l with
  | nil => simp [c_str]
  | cons x xs ih =>
    have hx : x ≠ 0 := h x (List.mem_cons_self _ _)
    have hxs : ∀ b ∈ xs, b ≠ 0 := fun b hb => h b (List.mem_cons_of_mem _ hb)
    simp [c_str, hx, ih hxs]

theorem to_char_kind (k : Nat) (hk : host_kind k) : to_char (k + 48) = k + 48 := by
  unfold to_char
  exact Nat.mod_eq_of_lt hk

theorem map_to_char_kinds (ks : List Nat) (hks : ∀ k ∈ ks, host_kind k) :
    ks.map (fun k => to_char (k + 48)) = ks.map (fun k => k + 48) := by
  apply List.map_congr_left
  intro k hk
  exact to_char_kind k (hks k hk)

theorem c_str_signature (fn : function) (hfn : ∀ k ∈ kinds fn.body, host_kind k) :
    c_str (get_gimple_signature fn) = (kinds fn.body).map (fun k => k + 48) := by
  rw [get_gimple_signature_eq, map_to_char_kinds _ hfn]
  apply c_str_append_zero
  intro b hb
  rcases List.mem_map.1 hb with ⟨k, _, rfl⟩
  omega

/-! ## Facts about the dump lines -/

theorem prune_line_inj (a b : String) : prune_line a = prune_line b ↔ a = b := by
  constructor
  · intro h
    have h' := congrArg String.data h
    simp only [prune_line, String.data_append, List.append_assoc] at h'
    have h2 := List.append_cancel_left h'
    exact String.ext (List.append_cancel_right h2)
  · intro h; rw [h]

theorem noprune_line_inj (a b : String) : noprune_line a = noprune_line b ↔ a = b := by
  constructor
  · intro h
    have h' := congrArg String.data h
    simp only [noprune_line, String.data_append, List.append_assoc] at h'
    have h2 := List.append_cancel_left h'
    exact String.ext (List.append_cancel_right h2)
  · intro h; rw [h]

theorem no_base_line_inj (a b : String) : no_base_line a = no_base_line b ↔ a = b := by
  constructor
  · intro h
    have h' := congrArg String.data h
    simp only [no_base_line, String.data_append, List.append_assoc] at h'
    have h2 := List.append_cancel_left h'
    exact String.ext (List.append_cancel_right h2)
  · intro h; rw [h]

theorem line_tag_prune (a : String) : line_tag (prune_line a) = ['P', 'R'] := by
  simp [line_tag, prune_line, String.data_append]

theorem line_tag_noprune (a : String) : line_tag (noprune_line a) = ['N', 'O'] := by
  simp [line_tag, noprune_line, String.data_append]

theorem line_tag_no_base (a : String) : line_tag (no_base_line a) = ['N', 'o'] := by
  simp [line_tag, no_base_line, String.data_append]

theorem count_single_ne {a b : String} (h : b ≠ a) : [b].count a = 0 := by
  rw [List.count_eq_zero, List.mem_singleton]
  exact fun h' => h h'.symm

theorem compare_clones_tag (d : Bool) (b : List Nat) (cl : List (List Nat)) :
    ∀ x ∈ (compare_clones d b cl).2, line_tag x = ['=', '='] := by
  induction cl with
  | nil => simp [compare_clones]
  | cons c rest ih =>
    have hc : ∀ x ∈ (compare_functions d b c).2, line_tag x = ['=', '='] := by
      intro x hx
      cases d with
      | false => simp [compare_functions] at hx
      | true =>
        simp only [compare_functions, if_true, List.mem_cons, List.mem_singleton,
          List.not_mem_nil, or_false] at hx
        rcases hx with h | h <;> rw [h] <;> simp [line_tag, String.data_append]
    intro x hx
    simp only [compare_clones] at hx
    split_ifs at hx with h
    · exact hc x hx
    · rcases List.mem_append.1 hx with h' | h'
      · exact hc x h'
      · exact ih x h'

theorem compare_clones_all (d : Bool) (b : List Nat) (cl : List (List Nat)) :
    (compare_clones d b cl).1 = true ↔ ∀ c ∈ cl, strcmp b c = 0 := by
  induction cl with
  | nil => simp [compare_clones]
  | cons c rest ih =>
    simp only [compare_clones]
    by_cases h : strcmp b c = 0
    · simp [compare_functions, h, ih]
    · simp [compare_functions, h]

theorem not_mem_compare_clones (d : Bool) (b : List Nat) (cl : List (List Nat)) (x : String)
    (hx : line_tag x ≠ ['=', '=']) : x ∉ (compare_clones d b cl).2 :=
  fun h => hx (compare_clones_tag d b cl x h)

theorem count_prune_group (M : StdMap (List Nat)) (e : String × List (List Nat))
    (key : String) :
    (group_lines M e).count (prune_line key) =
      match M.find e.1 with
      | none => 0
      | some b => if e.1 = key ∧ (compare_clones true b e.2).1 = true then 1 else 0 := by
  unfold group_lines
  cases hfind : M.find e.1 with
  | none =>
    have hne : no_base_line e.1 ≠ prune_line key := fun h => by
      have := congrArg line_tag h
      rw [line_tag_no_base, line_tag_prune] at this
      exact absurd this (by decide)
    exact count_single_ne hne
  | some b =>
    have h0 : (compare_clones true b e.2).2.count (prune_line key) = 0 :=
      List.count_eq_zero.2
        (not_mem_compare_clones true b e.2 _ (by rw [line_tag_prune]; decide))
    simp only [List.count_append, h0, zero_add]
    by_cases hall : (compare_clones true b e.2).1 = true
    · by_cases hk : e.1 = key
      · simp [hall, hk]
      · have hne : prune_line e.1 ≠ prune_line key := fun h => hk ((prune_line_inj _ _).1 h)
        simp [hall, hk, count_single_ne hne]
    · have hne : noprune_line e.1 ≠ prune_line key := fun h => by
        have := congrArg line_tag h
        rw [line_tag_noprune, line_tag_prune] at this
        exact absurd this (by decide)
      simp [hall, count_single_ne hne]

theorem count_noprune_group (M : StdMap (List Nat)) (e : String × List (List Nat))
    (key : String) :
    (group_lines M e).count (noprune_line key) =
      match M.find e.1 with
      | none => 0
      | some b => if e.1 = key ∧ (compare_clones true b e.2).1 = false then 1 else 0 := by
  unfold group_lines
  cases hfind : M.find e.1 with
  | none =>
    have hne : no_base_line e.1 ≠ noprune_line key := fun h => by
      have := congrArg line_tag h
      rw [line_tag_no_base, line_tag_noprune] at this
      exact absurd this (by decide)
    exact count_single_ne hne
  | some b =>
    have h0 : (compare_clones true b e.2).2.count (noprune_line key) = 0 :=
      List.count_eq_zero.2
        (not_mem_compare_clones true b e.2 _ (by rw [line_tag_noprune]; decide))
    simp only [List.count_append, h0, zero_add]
    by_cases hall : (compare_clones true b e.2).1 = true
    · have hne : prune_line e.1 ≠ noprune_line key := fun h => by
        have := congrArg line_tag h
        rw [line_tag_noprune, line_tag_prune] at this
        exact absurd this (by decide)
      simp [hall, count_single_ne hne]
    · by_cases hk : e.1 = key
      · simp [hall, hk]
      · have hne : noprune_line e.1 ≠ noprune_line key :=
          fun h => hk ((noprune_line_inj _ _).1 h)
        simp [hall, hk, count_single_ne hne]

theorem count_no_base_group (M : StdMap (List Nat)) (e : String × List (List Nat))
    (key : String) :
    (group_lines M e).count (no_base_line key) =
      match M.find e.1 with
      | none => if e.1 = key then 1 else 0
      | some _ => 0 := by
  unfold group_lines
  cases hfind : M.find e.1 with
  | none =>
    by_cases hk : e.1 = key
    · simp [hk]
    · have hne : no_base_line e.1 ≠ no_base_line key :=
        fun h => hk ((no_base_line_inj _ _).1 h)
      simp [hk, count_single_ne hne]
  | some b =>
    have h0 : (compare_clones true b e.2).2.count (no_base_line key) = 0 :=
      List.count_eq_zero.2
        (not_mem_compare_clones true b e.2 _ (by rw [line_tag_no_base]; decide))
    have hne1 : prune_line e.1 ≠ no_base_line key := fun h => by
      have := congrArg line_tag h
      rw [line_tag_no_base, line_tag_prune] at this
      exact absurd this (by decide)
    have hne2 : noprune_line e.1 ≠ no_base_line key := fun h => by
      have := congrArg line_tag h
      rw [line_tag_no_base, line_tag_noprune] at this
      exact absurd this (by decide)
    simp only [List.count_append, h0, zero_add]
    split_ifs
    · exact count_single_ne hne1
    · exact count_single_ne hne2

theorem key_lt_irrefl (a : String) : ¬ key_lt a a := by
  rw [key_lt_iff]
  exact lt_irrefl a

theorem count_groups_none {α : Type} (g : String × α → List String) (L key : String)
    (hz : ∀ e : String × α, e.1 ≠ key → (g e).count L = 0)
    (entries : List (String × α)) (hne : ∀ e ∈ entries, e.1 ≠ key) :
    ((entries.map g).flatten).count L = 0 := by
  induction entries with
  | nil => simp
  | cons e rest ih =>
    rw [List.map_cons, List.flatten_cons, List.count_append,
      hz e (hne e (List.mem_cons_self _ _)),
      ih (fun x hx => hne x (List.mem_cons_of_mem _ hx))]

theorem count_groups_some {α : Type} (g : String × α → List String) (L key : String)
    (hz : ∀ e : String × α, e.1 ≠ key → (g e).count L = 0)
    (entries : List (String × α)) (ho : entries.Pairwise (fun a b => key_lt a.1 b.1))
    (v : α) (hf : find_entry key entries = some v) :
    ((entries.map g).flatten).count L = (g (key, v)).count L := by
  induction entries with
  | nil => simp [find_entry] at hf
  | cons e rest ih =>
    rw [List.pairwise_cons] at ho
    rw [List.map_cons, List.flatten_cons, List.count_append]
    by_cases hk : e.1 = key
    · have hrest : ∀ x ∈ rest, x.1 ≠ key := by
        intro x hx hxk
        have := ho.1 x hx
        rw [hk, hxk] at this
        exact key_lt_irrefl key this
      rw [count_groups_none g L key hz rest hrest]
      simp only [find_entry, hk, if_true, Option.some.injEq] at hf
      have he : e = (key, v) := by rw [← hk, ← hf]
      rw [he, add_zero]
    · simp only [find_entry, hk, if_false] at hf
      rw [hz e hk, zero_add, ih ho.2 hf]

theorem find_entry_none {α : Type} (key : String) (entries : List (String × α))
    (hf : find_entry key entries = none) : ∀ e ∈ entries, e.1 ≠ key := by
  induction entries with
  | nil => simp
  | cons e rest ih =>
    simp only [find_entry] at hf
    split_ifs at hf with hk
    intro x hx
    rcases List.mem_cons.1 hx with h | h
    · rw [h]; exact hk
    · exact ih hf x h

theorem emitted_finished (st : State) :
    emitted st (finished true st) = finished_lines st := by
  simp [emitted, finished]

theorem count_finished_lines (st : State) (L : String)
    (h1 : L ≠ "=== Finished processing functions ===\n")
    (h2 : L ≠ "\n\n#### End dpham34 diagnostics, starting regular GIMPLE dump ####\n\n\n") :
    (finished_lines st).count L
      = ((st.clone_signatures.entries.map (group_lines st.base_signatures)).flatten).count L := by
  unfold finished_lines
  rw [List.count_append, List.count_append, count_single_ne (Ne.symm h1),
    count_single_ne (Ne.symm h2)]
  simp

theorem prune_line_ne_frame (key : String) :
    prune_line key ≠ "=== Finished processing functions ===\n" ∧
    prune_line key ≠
      "\n\n#### End dpham34 diagnostics, starting regular GIMPLE dump ####\n\n\n" := by
  constructor <;>
  · intro h
    have := congrArg line_tag h
    rw [line_tag_prune] at this
    exact absurd this (by decide)

theorem noprune_line_ne_frame (key : String) :
    noprune_line key ≠ "=== Finished processing functions ===\n" ∧
    noprune_line key ≠
      "\n\n#### End dpham34 diagnostics, starting regular GIMPLE dump ####\n\n\n" := by
  constructor <;>
  · intro h
    have := congrArg line_tag h
    rw [line_tag_noprune] at this
    exact absurd this (by decide)

theorem no_base_line_ne_frame (key : String) :
    no_base_line key ≠ "=== Finished processing functions ===\n" ∧
    no_base_line key ≠
      "\n\n#### End dpham34 diagnostics, starting regular GIMPLE dump ####\n\n\n" := by
  constructor <;>
  · intro h
    have := congrArg line_tag h
    rw [line_tag_no_base] at this
    exact absurd this (by decide)

theorem group_lines_other (M : StdMap (List Nat)) (key : String)
    (e : String × List (List Nat)) (he : e.1 ≠ key) :
    (group_lines M e).count (prune_line key) = 0 ∧
    (group_lines M e).count (noprune_line key) = 0 ∧
    (group_lines M e).count (no_base_line key) = 0 := by
  rw [count_prune_group, count_noprune_group, count_no_base_group]
  cases M.find e.1 <;> simp [he]

/-- Occurrences of a line about `key` in the text of `finished`, when `key` has a
clone group: they are those of the group's own lines. -/
theorem count_finished_group (st : State) (key : String) (clones : List (List Nat))
    (hclones : st.clone_signatures.find key = some clones) :
    (finished_lines st).count (prune_line key)
      = (group_lines st.base_signatures (key, clones)).count (prune_line key) ∧
    (finished_lines st).count (noprune_line key)
      = (group_lines st.base_signatures (key, clones)).count (noprune_line key) ∧
    (finished_lines st).count (no_base_line key)
      = (group_lines st.base_signatures (key, clones)).count (no_base_line key) := by
  rw [count_finished_lines st _ (prune_line_ne_frame key).1 (prune_line_ne_frame key).2,
    count_finished_lines st _ (noprune_line_ne_frame key).1 (noprune_line_ne_frame key).2,
    count_finished_lines st _ (no_base_line_ne_frame key).1 (no_base_line_ne_frame key).2]
  exact ⟨count_groups_some _ _ key (fun e he => (group_lines_other _ key e he).1) _
      st.clone_signatures.ordered clones hclones,
    count_groups_some _ _ key (fun e he => (group_lines_other _ key e he).2.1) _
      st.clone_signatures.ordered clones hclones,
    count_groups_some _ _ key (fun e he => (group_lines_other _ key e he).2.2) _
      st.clone_signatures.ordered clones hclones⟩

theorem groups_split {α : Type} (g : String × α → List String) (key : String)
    (entries : List (String × α)) (v : α) (hf : find_entry key entries = some v) :
    ∃ A B, (entries.map g).flatten = A ++ g (key, v) ++ B ∧
      ((erase_entry key entries).map g).flatten = A ++ B := by
  induction entries with
  | nil => simp [find_entry] at hf
  | cons e rest ih =>
    by_cases hk : e.1 = key
    · simp only [find_entry, hk, if_true, Option.some.injEq] at hf
      have he : e = (key, v) := by rw [← hk, ← hf]
      refine ⟨[], (rest.map g).flatten, ?_, ?_⟩
      · rw [List.map_cons, List.flatten_cons, he]; rfl
      · simp [erase_entry, hk]
    · simp only [find_entry, hk, if_false] at hf
      obtain ⟨A, B, h1, h2⟩ := ih hf
      refine ⟨g e ++ A, B, ?_, ?_⟩
      · rw [List.map_cons, List.flatten_cons, h1]
        simp [List.append_assoc]
      · simp only [erase_entry, hk, if_false, List.map_cons, List.flatten_cons]
        rw [h2, List.append_assoc]

/-! ## Facts about `execute` -/

theorem init_counter_remaining (d : Bool) (n : Nat) (st : State) :
    (init_counter d n st).remaining_funcs = counter_at_entry n st := by
  unfold init_counter counter_at_entry
  split_ifs <;> rfl

theorem init_counter_frame (d : Bool) (n : Nat) (st : State) :
    (init_counter d n st).base_signatures = st.base_signatures ∧
    (init_counter d n st).clone_signatures = st.clone_signatures ∧
    (init_counter d n st).finished_calls = st.finished_calls := by
  unfold init_counter
  split_ifs <;> exact ⟨rfl, rfl, rfl⟩

theorem count_down_remaining (d : Bool) (st : State) :
    (count_down d st).remaining_funcs = st.remaining_funcs - 1 := by
  unfold count_down
  simp only
  split_ifs <;> rfl

theorem count_down_calls (d : Bool) (st : State) :
    (count_down d st).finished_calls
      = st.finished_calls + (if st.remaining_funcs - 1 = 2 then 1 else 0) := by
  unfold count_down
  simp only
  split_ifs <;> rfl

theorem execute_remaining (d : Bool) (n : Nat) (fn : function) (st : State) :
    (execute d n fn st).remaining_funcs = counter_at_entry n st - 1 := by
  unfold execute
  simp only
  split_ifs
  · split
    · rw [count_down_remaining]; exact congrArg (· - 1) (init_counter_remaining d n st)
    · split_ifs
      · exact congrArg (· - 1) (init_counter_remaining d n st)
      · rw [count_down_remaining]; exact congrArg (· - 1) (init_counter_remaining d n st)
  · rw [count_down_remaining]; exact congrArg (· - 1) (init_counter_remaining d n st)

theorem execute_calls (d : Bool) (n : Nat) (fn : function) (st : State) :
    (execute d n fn st).finished_calls
      = st.finished_calls +
        (if counter_at_entry n st - 1 = 2 ∧ resolver_return d fn.name = false then 1 else 0) := by
  have hr := init_counter_remaining d n st
  have hc := (init_counter_frame d n st).2.2
  unfold execute resolver_return
  cases d with
  | false =>
    simp only [Bool.false_eq_true, if_false, Bool.false_and, and_true]
    rw [count_down_calls]
    simp only [hr, hc]
  | true =>
    simp only [if_true, Bool.true_and]
    split
    · rw [count_down_calls]
      simp only [hr, hc, and_true]
    · split_ifs with h1 h2 h3
      all_goals first
        | (rw [count_down_calls]; simp only [hr, hc]; simp_all)
        | simp_all

theorem find_dot_append (a b : List Char) (h : '.' ∉ a) :
    find_dot (a ++ '.' :: b) = some a.length := by
  induction a with
  | nil => simp [find_dot]
  | cons c cs ih =>
    have hc : c ≠ '.' := fun hc => h (by rw [hc]; exact List.mem_cons_self _ _)
    have hcs : '.' ∉ cs := fun hm => h (List.mem_cons_of_mem _ hm)
    simp [find_dot, hc, ih hcs]

theorem drop_after (a b : List Char) (c : Char) : (a ++ c :: b).drop (a.length + 1) = b := by
  induction a with
  | nil => simp
  | cons x xs ih => simp

theorem take_before (a b : List Char) : (a ++ b).take a.length = a := by
  simp

theorem resolver_name_split (base_part : String) (h : '.' ∉ base_part.data) :
    find_dot (base_part ++ "." ++ "resolver").data = some base_part.data.length ∧
    substr_from (base_part ++ "." ++ "resolver") (base_part.data.length + 1) = "resolver" ∧
    substr_to (base_part ++ "." ++ "resolver") base_part.data.length = base_part := by
  have hd : (base_part ++ "." ++ "resolver").data
      = base_part.data ++ '.' :: "resolver".data := by
    simp [String.data_append]
  refine ⟨?_, ?_, ?_⟩
  · rw [hd]; exact find_dot_append _ _ h
  · unfold substr_from
    rw [hd]
    apply String.ext
    exact drop_after _ _ _
  · unfold substr_to
    rw [hd]
    apply String.ext
    exact take_before _ _

theorem count_down_fired_tables (d : Bool) (st : State)
    (h : (count_down d st).finished_calls ≠ st.finished_calls) :
    (count_down d st).base_signatures = StdMap.empty ∧
    (count_down d st).clone_signatures = StdMap.empty := by
  unfold count_down at h ⊢
  simp only at h ⊢
  split_ifs at h ⊢ with h2
  · exact ⟨rfl, rfl⟩
  · exact absurd rfl h

theorem execute_cases (d : Bool) (n : Nat) (fn : function) (st : State) :
    (∃ st', execute d n fn st = count_down d st' ∧ st'.finished_calls = st.finished_calls) ∨
    ((execute d n fn st).finished_calls = st.finished_calls) := by
  have hc := (init_counter_frame d n st).2.2
  unfold execute
  simp only
  split_ifs
  · split
    · exact Or.inl ⟨_, rfl, hc⟩
    · split_ifs
      · exact Or.inr hc
      · exact Or.inl ⟨_, rfl, hc⟩
  · exact Or.inl ⟨_, rfl, hc⟩

theorem execute_fired_tables (d : Bool) (n : Nat) (fn : function) (st : State)
    (h : (execute d n fn st).finished_calls ≠ st.finished_calls) :
    (execute d n fn st).base_signatures = StdMap.empty ∧
    (execute d n fn st).clone_signatures = StdMap.empty := by
  rcases execute_cases d n fn st with ⟨st', he, hc⟩ | hsame
  · rw [he] at h ⊢
    exact count_down_fired_tables d st' (by rw [hc]; exact h)
  · exact absurd hsame h

theorem group_lines_single (M : StdMap (List Nat)) (k : String) (b c : List Nat)
    (h : M.find k = some b) :
    group_lines M (k, [c]) = (compare_functions true b c).2
      ++ [if (compare_functions true b c).1 then prune_line k else noprune_line k] := by
  unfold group_lines
  simp only [h, compare_clones]
  cases hc : (compare_functions true b c).1 <;> simp [hc]

theorem counter_at_entry_of_nonneg (n : Nat) (st : State) (r : Nat)
    (h : st.remaining_funcs = (r : Int)) : counter_at_entry n st = (r : Int) := by
  unfold counter_at_entry
  rw [if_neg (by omega), h]

theorem counter_at_entry_initial (n : Nat) : counter_at_entry n State.initial = (n : Int) := by
  simp [counter_at_entry, State.initial]

/-- Once the counter is at most 2 it stays below 2 while it is not negative:
no visit calls `finished`. -/
theorem run_calls_low (d : Bool) (visits : List (Nat × function)) (st : State) (r : Nat)
    (hentry : ∀ w, visits.head? = some w → counter_at_entry w.1 st = (r : Int))
    (hr : r ≤ 2) (hlen : visits.length ≤ r) :
    (run d visits st).finished_calls = st.finished_calls := by
  induction visits generalizing st r with
  | nil => rfl
  | cons w rest ih =>
    have he := hentry w rfl
    simp only [List.length_cons] at hlen
    have hrem := execute_remaining d w.1 w.2 st
    have hcalls := execute_calls d w.1 w.2 st
    rw [he] at hrem hcalls
    rw [if_neg (by omega)] at hcalls
    simp only [run]
    rw [ih (execute d w.1 w.2 st) (r - 1)
      (fun w' _ => counter_at_entry_of_nonneg w'.1 _ (r - 1) (by rw [hrem]; omega))
      (by omega) (by omega)]
    exact hcalls

/-- The visit that brings the counter from 3 to 2 calls `finished`, provided it
does not leave through the resolver return, and no other visit does while the
counter is not negative. -/
theorem run_calls_once (d : Bool) (visits : List (Nat × function)) (st : State) (r : Nat)
    (v : Nat × function)
    (hentry : ∀ w, visits.head? = some w → counter_at_entry w.1 st = (r : Int))
    (hr : 3 ≤ r) (hlen : visits.length ≤ r)
    (hv : visits[r - 3]? = some v) (hrr : resolver_return d v.2.name = false) :
    (run d visits st).finished_calls = st.finished_calls + 1 := by
  induction visits generalizing st r with
  | nil => simp at hv
  | cons w rest ih =>
    have he := hentry w rfl
    simp only [List.length_cons] at hlen
    have hrem := execute_remaining d w.1 w.2 st
    have hcalls := execute_calls d w.1 w.2 st
    rw [he] at hrem hcalls
    simp only [run]
    have hnext : ∀ w', rest.head? = some w' →
        counter_at_entry w'.1 (execute d w.1 w.2 st) = ((r - 1 : Nat) : Int) :=
      fun w' _ => counter_at_entry_of_nonneg w'.1 _ (r - 1) (by rw [hrem]; omega)
    by_cases h3 : r = 3
    · subst h3
      simp only [Nat.sub_self, List.getElem?_cons_zero, Option.some.injEq] at hv
      subst hv
      rw [hrr] at hcalls
      rw [run_calls_low d rest _ 2 hnext (le_refl 2) (by omega), hcalls]
      simp
    · have hidx : r - 3 = (r - 1 - 3) + 1 := by omega
      rw [hidx, List.getElem?_cons_succ] at hv
      rw [ih (execute d w.1 w.2 st) (r - 1) hnext (by omega) (by omega) hv, hcalls,
        if_neg (by omega)]

/-- While the counter stays above 2 no visit calls `finished`. -/
theorem run_calls_high (d : Bool) (visits : List (Nat × function)) (st : State) (r : Nat)
    (hentry : ∀ w, visits.head? = some w → counter_at_entry w.1 st = (r : Int))
    (hlen : visits.length + 3 ≤ r) :
    (run d visits st).finished_calls = st.finished_calls := by
  induction visits generalizing st r with
  | nil => rfl
  | cons w rest ih =>
    have he := hentry w rfl
    simp only [List.length_cons] at hlen
    have hrem := execute_remaining d w.1 w.2 st
    have hcalls := execute_calls d w.1 w.2 st
    rw [he] at hrem hcalls
    rw [if_neg (by omega)] at hcalls
    simp only [run]
    rw [ih (execute d w.1 w.2 st) (r - 1)
      (fun w' _ => counter_at_entry_of_nonneg w'.1 _ (r - 1) (by rw [hrem]; omega))
      (by omega)]
    exact hcalls

theorem head?_take {α : Type} (l : List α) (k : Nat) (w : α)
    (h : (l.take k).head? = some w) : l.head? = some w := by
  cases l with
  | nil => simp at h
  | cons a rest =>
    cases k with
    | zero => simp at h
    | succ k => simpa using h

/-! ## Facts about the maps -/

theorem find_entry_insert_self {α : Type} (k : String) (v : α) (l : List (String × α)) :
    find_entry k (insert_entry k v l) = some v := by
  induction l with
  | nil => simp [insert_entry, find_entry]
  | cons e rest ih =>
    simp only [insert_entry]
    split_ifs with h1 h2
    · simp [find_entry]
    · simp [find_entry]
    · have hne : ¬ e.1 = k := fun h => h2 h.symm
      simp only [find_entry, hne, if_false]
      exact ih

theorem find_entry_insert_ne {α : Type} (k k' : String) (v : α) (l : List (String × α))
    (hne : k' ≠ k) : find_entry k' (insert_entry k v l) = find_entry k' l := by
  have hkk : ¬ k = k' := fun h => hne h.symm
  induction l with
  | nil => simp [insert_entry, find_entry, hkk]
  | cons e rest ih =>
    simp only [insert_entry]
    split_ifs with h1 h2
    · simp [find_entry, hkk]
    · have he : ¬ e.1 = k' := fun h => hkk (h2.trans h)
      simp [find_entry, hkk, he]
    · simp only [find_entry, ih]

theorem insert_entry_mem {α : Type} (k : String) (v : α) (l : List (String × α))
    (e : String × α) (he : e ∈ insert_entry k v l) : e = (k, v) ∨ e ∈ l := by
  induction l with
  | nil =>
    simp only [insert_entry, List.mem_singleton] at he
    exact Or.inl he
  | cons a rest ih =>
    simp only [insert_entry] at he
    split_ifs at he with h1 h2
    · rcases List.mem_cons.1 he with h | h
      · exact Or.inl h
      · exact Or.inr h
    · rcases List.mem_cons.1 he with h | h
      · exact Or.inl h
      · exact Or.inr (List.mem_cons_of_mem _ h)
    · rcases List.mem_cons.1 he with h | h
      · exact Or.inr (by rw [h]; exact List.mem_cons_self _ _)
      · rcases ih h with h' | h'
        · exact Or.inl h'
        · exact Or.inr (List.mem_cons_of_mem _ h')

theorem find_entry_mem {α : Type} (k : String) (v : α) (l : List (String × α))
    (h : find_entry k l = some v) : (k, v) ∈ l := by
  induction l with
  | nil => simp [find_entry] at h
  | cons e rest ih =>
    simp only [find_entry] at h
    split_ifs at h with hk
    · simp only [Option.some.injEq] at h
      have : e = (k, v) := by rw [← hk, ← h]
      rw [this]
      exact List.mem_cons_self _ _
    · exact List.mem_cons_of_mem _ (ih h)

theorem find_assign_self {α : Type} (m : StdMap α) (k : String) (v : α) :
    (m.assign k v).find k = some v :=
  find_entry_insert_self k v m.entries

theorem find_assign_ne {α : Type} (m : StdMap α) (k k' : String) (v : α) (hne : k' ≠ k) :
    (m.assign k v).find k' = m.find k' :=
  find_entry_insert_ne k k' v m.entries hne

theorem find_push_back_self {α : Type} (m : StdMap (List α)) (k : String) (x : α) :
    (m.push_back k x).find k = some ((m.find k).getD [] ++ [x]) :=
  find_entry_insert_self k _ m.entries

theorem find_push_back_ne {α : Type} (m : StdMap (List α)) (k k' : String) (x : α)
    (hne : k' ≠ k) : (m.push_back k x).find k' = m.find k' :=
  find_entry_insert_ne k k' _ m.entries hne

/-! ## Facts about names -/

theorem find_dot_none (cs : List Char) (h : '.' ∉ cs) : find_dot cs = none := by
  induction cs with
  | nil => rfl
  | cons c rest ih =>
    have hc : c ≠ '.' := fun hc => h (by rw [hc]; exact List.mem_cons_self _ _)
    have hr : '.' ∉ rest := fun hm => h (List.mem_cons_of_mem _ hm)
    simp [find_dot, hc, ih hr]

theorem name_split (base_part suffix : String) (h : '.' ∉ base_part.data) :
    find_dot (base_part ++ "." ++ suffix).data = some base_part.data.length ∧
    substr_from (base_part ++ "." ++ suffix) (base_part.data.length + 1) = suffix ∧
    substr_to (base_part ++ "." ++ suffix) base_part.data.length = base_part := by
  have hd : (base_part ++ "." ++ suffix).data = base_part.data ++ '.' :: suffix.data := by
    simp [String.data_append]
  refine ⟨?_, ?_, ?_⟩
  · rw [hd]; exact find_dot_append _ _ h
  · unfold substr_from
    rw [hd]
    apply String.ext
    exact drop_after _ _ _
  · unfold substr_to
    rw [hd]
    apply String.ext
    exact take_before _ _

theorem entry_state_frame (d : Bool) (n : Nat) (st : State) :
    (entry_state d n st).base_signatures = st.base_signatures ∧
    (entry_state d n st).clone_signatures = st.clone_signatures ∧
    (entry_state d n st).finished_calls = st.finished_calls ∧
    (entry_state d n st).remaining_funcs = counter_at_entry n st :=
  ⟨(init_counter_frame d n st).1, (init_counter_frame d n st).2.1,
    (init_counter_frame d n st).2.2, init_counter_remaining d n st⟩

theorem count_down_not_fired (d : Bool) (st : State) (h : st.remaining_funcs - 1 ≠ 2) :
    count_down d st = { st with remaining_funcs := st.remaining_funcs - 1 } := by
  unfold count_down
  simp only
  rw [if_neg h]

theorem count_down_fired (d : Bool) (st : State) (h : st.remaining_funcs - 1 = 2) :
    count_down d st = finished d { st with remaining_funcs := st.remaining_funcs - 1 } := by
  unfold count_down
  simp only
  rw [if_pos h]

/-- A visit of a function without a dot in its name, `dump_file` open: the common
tail of `execute` runs on the state in which the signature is stored. -/
theorem execute_base_eq (n : Nat) (fn : function) (st : State)
    (h : find_dot fn.name.data = none) :
    execute true n fn st = count_down true
      { entry_state true n st with
        base_signatures :=
          (entry_state true n st).base_signatures.assign fn.name (get_gimple_signature fn) } := by
  unfold execute entry_state
  simp only [if_true, h]

/-- A visit of a function whose name has a dot and whose text after the first dot
is not `resolver`, `dump_file` open: the common tail of `execute` runs on the
state in which the signature is appended to the clone list. -/
theorem execute_clone_eq (n : Nat) (fn : function) (st : State) (pos : Nat)
    (h : find_dot fn.name.data = some pos)
    (hs : substr_from fn.name (pos + 1) ≠ "resolver") :
    execute true n fn st = count_down true
      { entry_state true n st with
        clone_signatures := (entry_state true n st).clone_signatures.push_back
          (substr_to fn.name pos) (get_gimple_signature fn)
        dump := (entry_state true n st).dump ++
          ["=== Recorded cloned function: " ++ fn.name ++ " (base: "
            ++ substr_to fn.name pos ++ ") ===\n"] } := by
  unfold execute entry_state
  simp only [if_true, h, hs, if_false]

/-- A visit with `dump_file` closed is the common tail of `execute` alone. -/
theorem execute_closed_eq (n : Nat) (fn : function) (st : State) :
    execute false n fn st = count_down false (entry_state false n st) := by
  unfold execute entry_state
  simp

/-- The counter after a non-empty run of visits that starts with entry value `r`
and is at most `r + 1` visits long: one less per visit. -/
theorem run_remaining (d : Bool) (visits : List (Nat × function)) (st : State) (r : Nat)
    (hentry : ∀ w, visits.head? = some w → counter_at_entry w.1 st = (r : Int))
    (hne : visits ≠ []) (hlen : visits.length ≤ r + 1) :
    (run d visits st).remaining_funcs = (r : Int) - (visits.length : Int) := by
  induction visits generalizing st r with
  | nil => exact absurd rfl hne
  | cons w rest ih =>
    have he := hentry w rfl
    simp only [List.length_cons] at hlen
    have hrem := execute_remaining d w.1 w.2 st
    rw [he] at hrem
    simp only [run]
    cases hrest : rest with
    | nil =>
      simp only [run, List.length_cons, List.length_nil]
      rw [hrem]
      rfl
    | cons w' rest' =>
      rw [← hrest]
      have hpos : 1 ≤ rest.length := by rw [hrest]; simp
      rw [ih (execute d w.1 w.2 st) (r - 1)
        (fun w' _ => counter_at_entry_of_nonneg w'.1 _ (r - 1) (by rw [hrem]; omega))
        (by rw [hrest]; simp) (by omega)]
      simp only [List.length_cons]
      push_cast
      omega

theorem run_append (d : Bool) (l1 l2 : List (Nat × function)) (st : State) :
    run d (l1 ++ l2) st = run d l2 (run d l1 st) := by
  induction l1 generalizing st with
  | nil => rfl
  | cons w rest ih =>
    show run d (rest ++ l2) (execute d w.1 w.2 st) = run d l2 (run d rest (execute d w.1 w.2 st))
    exact ih _

theorem run_take_succ (d : Bool) (visits : List (Nat × function)) (st : State) (j : Nat)
    (v : Nat × function) (hv : visits[j]? = some v) :
    run d (visits.take (j + 1)) st = execute d v.1 v.2 (run d (visits.take j) st) := by
  have hlt : j < visits.length := by
    by_contra h
    rw [List.getElem?_eq_none (by omega)] at hv
    exact absurd hv (by simp)
  have hget : visits[j] = v := by
    rw [List.getElem?_eq_getElem hlt] at hv
    exact Option.some.inj hv
  rw [List.take_succ, hv, run_append]
  rfl

/-- Entry value of the counter at the visit of index `j` of a run from the
initial state whose first visit is told `N` functions, for `j ≤ N`. -/
theorem entry_counter_at (d : Bool) (visits : List (Nat × function)) (N j : Nat)
    (v : Nat × function)
    (hcount : ∀ w, visits.head? = some w → w.1 = N)
    (hv : visits[j]? = some v) (hj : j ≤ N) :
    counter_at_entry v.1 (run d (visits.take j) State.initial) = ((N - j : Nat) : Int) := by
  cases j with
  | zero =>
    have hh : visits.head? = some v := by
      cases visits with
      | nil => simp at hv
      | cons a rest => simpa using hv
    simp only [List.take_zero, run, Nat.sub_zero]
    rw [counter_at_entry_initial, hcount v hh]
  | succ i =>
    have hlt : i + 1 < visits.length := by
      by_contra h
      rw [List.getElem?_eq_none (by omega)] at hv
      exact absurd hv (by simp)
    apply counter_at_entry_of_nonneg
    rw [run_remaining d (visits.take (i + 1)) State.initial N
      (fun w hw => by rw [counter_at_entry_initial, hcount w (head?_take _ _ _ hw)])
      (by
        intro h
        have := congrArg List.length h
        rw [List.length_take, Nat.min_eq_left (by omega)] at this
        simp at this)
      (by rw [List.length_take]; omega)]
    rw [List.length_take, Nat.min_eq_left (by omega)]
    push_cast
    omega

theorem entry_state_dump_closed (n : Nat) (st : State) :
    (entry_state false n st).dump = st.dump := by
  unfold entry_state init_counter
  by_cases h : st.remaining_funcs < 0 <;> simp [h]

theorem count_down_dump_closed (st : State) : (count_down false st).dump = st.dump := by
  unfold count_down
  simp only
  split_ifs <;> rfl

theorem count_down_nonempty (d : Bool) (st : State) (h : clone_lists_nonempty st) :
    clone_lists_nonempty (count_down d st) := by
  unfold count_down
  simp only
  split_ifs
  · intro e he
    simp [finished, StdMap.empty] at he
  · exact h

theorem push_back_nonempty (m : StdMap (List (List Nat))) (k : String) (x : List Nat)
    (h : ∀ e ∈ m.entries, e.2 ≠ []) : ∀ e ∈ (m.push_back k x).entries, e.2 ≠ [] := by
  intro e he
  rcases insert_entry_mem k _ m.entries e he with h1 | h1
  · rw [h1]
    simp
  · exact h e h1

theorem execute_nonempty (d : Bool) (n : Nat) (fn : function) (st : State)
    (h : clone_lists_nonempty st) : clone_lists_nonempty (execute d n fn st) := by
  have hc : (entry_state d n st).clone_signatures = st.clone_signatures :=
    (entry_state_frame d n st).2.1
  cases d with
  | false =>
    rw [execute_closed_eq]
    apply count_down_nonempty
    intro e he
    rw [hc] at he
    exact h e he
  | true =>
    cases hfd : find_dot fn.name.data with
    | none =>
      rw [execute_base_eq n fn st hfd]
      apply count_down_nonempty
      intro e he
      simp only [hc] at he
      exact h e he
    | some pos =>
      by_cases hs : substr_from fn.name (pos + 1) = "resolver"
      · have heq : execute true n fn st
            = { entry_state true n st with
                remaining_funcs := (entry_state true n st).remaining_funcs - 1 } := by
          unfold execute entry_state
          simp only [if_true, hfd, hs]
        rw [heq]
        intro e he
        simp only [hc] at he
        exact h e he
      · rw [execute_clone_eq n fn st pos hfd hs]
        apply count_down_nonempty
        intro e he
        simp only [hc] at he
        exact push_back_nonempty _ _ _ h e he

theorem count_finished_absent (st : State) (key : String)
    (h : st.clone_signatures.find key = none) :
    (finished_lines st).count (prune_line key) = 0 ∧
    (finished_lines st).count (noprune_line key) = 0 ∧
    (finished_lines st).count (no_base_line key) = 0 := by
  have hne := find_entry_none key st.clone_signatures.entries h
  rw [count_finished_lines st _ (prune_line_ne_frame key).1 (prune_line_ne_frame key).2,
    count_finished_lines st _ (noprune_line_ne_frame key).1 (noprune_line_ne_frame key).2,
    count_finished_lines st _ (no_base_line_ne_frame key).1 (no_base_line_ne_frame key).2]
  exact ⟨count_groups_none _ _ key (fun e he => (group_lines_other _ key e he).1) _ hne,
    count_groups_none _ _ key (fun e he => (group_lines_other _ key e he).2.1) _ hne,
    count_groups_none _ _ key (fun e he => (group_lines_other _ key e he).2.2) _ hne⟩

theorem verdict_count_group (st : State) (key : String) (base_sig : List Nat)
    (clones : List (List Nat))
    (hbase : st.base_signatures.find key = some base_sig)
    (hclones : st.clone_signatures.find key = some clones) :
    (finished_lines st).count (prune_line key)
      + (finished_lines st).count (noprune_line key) = 1 := by
  have hp := (count_finished_group st key clones hclones).1
  have hn := (count_finished_group st key clones hclones).2.1
  simp only [count_prune_group, count_noprune_group, hbase, true_and] at hp hn
  rw [hp, hn]
  cases (compare_clones true base_sig clones).1 <;> simp

theorem key_lt_asymm (a b : String) (h : key_lt a b) : ¬ key_lt b a := by
  rw [key_lt_iff] at h ⊢
  exact lt_asymm h

theorem find_entry_head_lt {α : Type} (e : String × α) (rest : List (String × α))
    (ho : (e :: rest).Pairwise (fun a b => key_lt a.1 b.1)) (k : String) (v : α)
    (h : find_entry k rest = some v) : key_lt e.1 k :=
  (List.pairwise_cons.1 ho).1 (k, v) (find_entry_mem k v rest h)

/-- In the concatenation of the groups' lines, the lines of a key come before
those of every greater key. -/
theorem groups_in_order {α : Type} (g : String × α → List String)
    (entries : List (String × α)) (ho : entries.Pairwise (fun a b => key_lt a.1 b.1))
    (k1 k2 : String) (v1 v2 : α)
    (h1 : find_entry k1 entries = some v1) (h2 : find_entry k2 entries = some v2)
    (hlt : key_lt k1 k2) :
    ∃ A B C, (entries.map g).flatten = A ++ g (k1, v1) ++ B ++ g (k2, v2) ++ C := by
  induction entries with
  | nil => simp [find_entry] at h1
  | cons e rest ih =>
    by_cases hk1 : e.1 = k1
    · have hk2 : ¬ e.1 = k2 := by
        intro h
        rw [hk1] at h
        rw [h] at hlt
        exact key_lt_irrefl _ hlt
      simp only [find_entry, hk1, if_true, Option.some.injEq] at h1
      simp only [find_entry, hk2, if_false] at h2
      have he : e = (k1, v1) := by rw [← hk1, ← h1]
      obtain ⟨A, B, hs, _⟩ := groups_split g k2 rest v2 h2
      refine ⟨[], A, B, ?_⟩
      rw [List.map_cons, List.flatten_cons, hs, he]
      simp [List.append_assoc]
    · simp only [find_entry, hk1, if_false] at h1
      have hk2 : ¬ e.1 = k2 := by
        intro h
        have hlt' := find_entry_head_lt e rest ho k1 v1 h1
        rw [h] at hlt'
        exact key_lt_asymm _ _ hlt hlt'
      simp only [find_entry, hk2, if_false] at h2
      obtain ⟨A, B, C, hs⟩ := ih (List.pairwise_cons.1 ho).2 h1 h2
      refine ⟨g e ++ A, B, C, ?_⟩
      rw [List.map_cons, List.flatten_cons, hs]
      simp [List.append_assoc]

theorem group_lines_shape (M : StdMap (List Nat)) (e : String × List (List Nat)) :
    ∃ sigs r, group_lines M e = sigs ++ [r] ∧
      (r = prune_line e.1 ∨ r = noprune_line e.1 ∨ r = no_base_line e.1) ∧
      ∀ x ∈ sigs, line_tag x = ['=', '='] := by
  unfold group_lines
  cases M.find e.1 with
  | none => exact ⟨[], no_base_line e.1, rfl, Or.inr (Or.inr rfl), by simp⟩
  | some b =>
    refine ⟨(compare_clones true b e.2).2, _, rfl, ?_, compare_clones_tag true b e.2⟩
    split_ifs
    · exact Or.inl rfl
    · exact Or.inr (Or.inl rfl)

theorem tag_not_result (x : String) (h : line_tag x = ['=', '=']) (k : String) :
    x ≠ prune_line k ∧ x ≠ noprune_line k ∧ x ≠ no_base_line k := by
  refine ⟨?_, ?_, ?_⟩ <;> intro hx <;> rw [hx] at h
  · rw [line_tag_prune] at h; exact absurd h (by decide)
  · rw [line_tag_noprune] at h; exact absurd h (by decide)
  · rw [line_tag_no_base] at h; exact absurd h (by decide)

theorem kinds_eq_flatten (body : List basic_block) :
    kinds body = (body.map (fun bb => bb.map gimple.code)).flatten := by
  unfold kinds
  rw [List.map_flatten]

/-! ## Claims on finalization -/

/-- C1: for every state and every key with a clone group and a base signature,
`finished` with `dump_file` open writes `PRUNE: key` exactly when every clone
signature of the group compares equal (`strcmp`) to the base signature and
`NOPRUNE: key` exactly when some clone signature does not; the two lines
together occur exactly once in the text written. -/
theorem finished_verdict (st : State) (key : String) (base_sig : List Nat)
    (clones : List (List Nat))
    (hbase : st.base_signatures.find key = some base_sig)
    (hclones : st.clone_signatures.find key = some clones) :
    (prune_line key ∈ emitted st (finished true st)
      ↔ ∀ c ∈ clones, strcmp base_sig c = 0) ∧
    (noprune_line key ∈ emitted st (finished true st)
      ↔ ¬ ∀ c ∈ clones, strcmp base_sig c = 0) ∧
    (emitted st (finished true st)).count (prune_line key)
      + (emitted st (finished true st)).count (noprune_line key) = 1 := by
  rw [emitted_finished]
  have hp := (count_finished_group st key clones hclones).1
  have hn := (count_finished_group st key clones hclones).2.1
  simp only [count_prune_group, count_noprune_group, hbase, true_and] at hp hn
  have hall := compare_clones_all true base_sig clones
  by_cases h : (compare_clones true base_sig clones).1 = true
  · rw [if_pos h] at hp
    rw [if_neg (by rw [h]; decide)] at hn
    refine ⟨?_, ?_, by rw [hp, hn]⟩
    · exact ⟨fun _ => hall.1 h, fun _ => List.count_pos_iff.1 (by rw [hp]; decide)⟩
    · exact ⟨fun hm => absurd (List.count_pos_iff.2 hm) (by rw [hn]; decide),
        fun hno => absurd (hall.1 h) hno⟩
  · rw [if_neg h] at hp
    rw [if_pos (by simpa using h)] at hn
    refine ⟨?_, ?_, by rw [hp, hn]⟩
    · exact ⟨fun hm => absurd (List.count_pos_iff.2 hm) (by rw [hp]; decide),
        fun ha => absurd (hall.2 ha) h⟩
    · exact ⟨fun _ ha => h (hall.2 ha), fun _ => List.count_pos_iff.1 (by rw [hn]; decide)⟩

theorem finished_verdict_witness :
    prune_line "foo" ∈ emitted scenario_A (finished true scenario_A) ∧
    noprune_line "foo" ∈ emitted scenario_B (finished true scenario_B) ∧
    (emitted scenario_B (finished true scenario_B)).count (prune_line "foo")
      + (emitted scenario_B (finished true scenario_B)).count (noprune_line "foo") = 1 :=
  ⟨(finished_verdict scenario_A "foo" [65, 66, 0] [[65, 66, 0], [65, 66, 0]] rfl rfl).1.2
      (by decide),
    (finished_verdict scenario_B "foo" [65, 66, 0] [[65, 66, 0], [65, 67, 0]] rfl rfl).2.1.2
      (by decide),
    (finished_verdict scenario_B "foo" [65, 66, 0] [[65, 66, 0], [65, 67, 0]] rfl rfl).2.2⟩

/-- C2: for every state and every key with a clone group and no entry in the
base table, `finished` with `dump_file` open writes the line
`No base signature found for cloned functions with base: key` exactly once and
writes neither `PRUNE: key` nor `NOPRUNE: key`; the rest of the text is what
`finished` writes when the group is absent: the text is `A ++ line :: B` and
without the group it is `A ++ B`. -/
theorem finished_missing_base (st : State) (key : String) (clones : List (List Nat))
    (hbase : st.base_signatures.find key = none)
    (hclones : st.clone_signatures.find key = some clones) :
    (emitted st (finished true st)).count (no_base_line key) = 1 ∧
    prune_line key ∉ emitted st (finished true st) ∧
    noprune_line key ∉ emitted st (finished true st) ∧
    ∃ A B, emitted st (finished true st) = A ++ no_base_line key :: B ∧
      emitted { st with clone_signatures := st.clone_signatures.erase key }
        (finished true { st with clone_signatures := st.clone_signatures.erase key })
        = A ++ B := by
  rw [emitted_finished, emitted_finished]
  obtain ⟨hp, hn, hb⟩ := count_finished_group st key clones hclones
  simp only [count_prune_group, hbase] at hp
  simp only [count_noprune_group, hbase] at hn
  simp only [count_no_base_group, hbase, if_true] at hb
  refine ⟨hb, List.count_eq_zero.1 hp, List.count_eq_zero.1 hn, ?_⟩
  obtain ⟨A, B, h1, h2⟩ :=
    groups_split (group_lines st.base_signatures) key st.clone_signatures.entries clones hclones
  have hg : group_lines st.base_signatures (key, clones) = [no_base_line key] := by
    simp [group_lines, hbase]
  refine ⟨"=== Finished processing functions ===\n" :: A,
    B ++ ["\n\n#### End dpham34 diagnostics, starting regular GIMPLE dump ####\n\n\n"], ?_, ?_⟩
  · simp only [finished_lines]
    rw [h1, hg]
    simp [List.append_assoc]
  · simp only [finished_lines, StdMap.erase]
    rw [h2]
    simp [List.append_assoc]

theorem finished_missing_base_witness :
    (emitted scenario_C (finished true scenario_C)).count (no_base_line "bar") = 1 ∧
    prune_line "bar" ∉ emitted scenario_C (finished true scenario_C) ∧
    noprune_line "bar" ∉ emitted scenario_C (finished true scenario_C) :=
  ⟨(finished_missing_base scenario_C "bar" [[65, 66, 0]] rfl rfl).1,
    (finished_missing_base scenario_C "bar" [[65, 66, 0]] rfl rfl).2.1,
    (finished_missing_base scenario_C "bar" [[65, 66, 0]] rfl rfl).2.2.1⟩

/-- C7 (clean reset): after `finished`, with `dump_file` open or not, the base
table and the clone table are empty; hence whenever a visit by `execute` has
called `finished`, both tables are empty after the visit and the following
visits record into empty tables. -/
theorem finished_clears (dump_file : Bool) (st : State) :
    (finished dump_file st).base_signatures = StdMap.empty ∧
    (finished dump_file st).clone_signatures = StdMap.empty ∧
    (finished dump_file st).base_signatures.entries = [] ∧
    (finished dump_file st).clone_signatures.entries = [] ∧
    (∀ k, (finished dump_file st).base_signatures.find k = none ∧
      (finished dump_file st).clone_signatures.find k = none) ∧
    (∀ (defined : Nat) (fn : function),
      (execute dump_file defined fn st).finished_calls ≠ st.finished_calls →
      (execute dump_file defined fn st).base_signatures = StdMap.empty ∧
      (execute dump_file defined fn st).clone_signatures = StdMap.empty) :=
  ⟨rfl, rfl, rfl, rfl, fun _ => ⟨rfl, rfl⟩,
    fun defined fn h => execute_fired_tables dump_file defined fn st h⟩

theorem finished_clears_witness :
    (finished true scenario_B).base_signatures = StdMap.empty ∧
    (finished true scenario_B).clone_signatures = StdMap.empty ∧
    (execute true 3 ⟨"foo", [[⟨6, []⟩]]⟩ State.initial).base_signatures = StdMap.empty ∧
    (execute true 3 ⟨"foo", [[⟨6, []⟩]]⟩ State.initial).clone_signatures = StdMap.empty :=
  ⟨(finished_clears true scenario_B).1, (finished_clears true scenario_B).2.1,
    (finished_clears true State.initial).2.2.2.2.2 3 ⟨"foo", [[⟨6, []⟩]]⟩ (by decide)⟩

/-- C14, the claim as stated fails: `main` has a base signature and no clone
group, and `finished` writes no verdict line for it. -/
theorem verdict_per_base_key_counterexample :
    scenario_base_only.base_signatures.find "main" = some [58, 0] ∧
    prune_line "main" ∉ emitted scenario_base_only (finished true scenario_base_only) ∧
    noprune_line "main" ∉ emitted scenario_base_only (finished true scenario_base_only) := by
  decide

/-- C14 (amended): for every state and every key with a base signature,
`finished` with `dump_file` open writes exactly one verdict line (`PRUNE: key`
or `NOPRUNE: key`) when the key has a clone group, and no verdict line when it
has none. -/
theorem verdict_per_base_key (st : State) (key : String) (base_sig : List Nat)
    (hbase : st.base_signatures.find key = some base_sig) :
    ((∃ clones, st.clone_signatures.find key = some clones) →
      (emitted st (finished true st)).count (prune_line key)
        + (emitted st (finished true st)).count (noprune_line key) = 1) ∧
    (st.clone_signatures.find key = none →
      prune_line key ∉ emitted st (finished true st) ∧
      noprune_line key ∉ emitted st (finished true st)) := by
  rw [emitted_finished]
  constructor
  · rintro ⟨clones, hclones⟩
    exact verdict_count_group st key base_sig clones hbase hclones
  · intro hnone
    obtain ⟨hp, hn, _⟩ := count_finished_absent st key hnone
    exact ⟨List.count_eq_zero.1 hp, List.count_eq_zero.1 hn⟩

theorem verdict_per_base_key_witness :
    (emitted scenario_C (finished true scenario_C)).count (prune_line "foo")
      + (emitted scenario_C (finished true scenario_C)).count (noprune_line "foo") = 1 ∧
    prune_line "main" ∉ emitted scenario_base_only (finished true scenario_base_only) :=
  ⟨(verdict_per_base_key scenario_C "foo" [65, 66, 0] rfl).1 ⟨_, rfl⟩,
    ((verdict_per_base_key scenario_base_only "main" [58, 0] rfl).2 rfl).1⟩

/-- C15: the text `finished` writes with `dump_file` open is the header, then
the lines of the clone groups one group after the other in the order of the
table, then the trailer; the keys in that order are strictly ascending in the
lexicographic order of strings; the lines of a group are signature lines (none
of them a `PRUNE`, `NOPRUNE` or missing-base line) followed by one line that
is the `PRUNE`, `NOPRUNE` or missing-base line of the group's key; and for two
groups with keys `k1 < k2` all lines of the group of `k1` come before all lines
of the group of `k2`. -/
theorem finished_group_order (st : State) :
    emitted st (finished true st)
      = "=== Finished processing functions ===\n" ::
        ((st.clone_signatures.entries.map (group_lines st.base_signatures)).flatten
          ++ ["\n\n#### End dpham34 diagnostics, starting regular GIMPLE dump ####\n\n\n"]) ∧
    (st.clone_signatures.entries.map Prod.fst).Pairwise (fun a b => a < b) ∧
    (∀ e ∈ st.clone_signatures.entries, ∃ sigs r,
      group_lines st.base_signatures e = sigs ++ [r] ∧
      (r = prune_line e.1 ∨ r = noprune_line e.1 ∨ r = no_base_line e.1) ∧
      ∀ x ∈ sigs, ∀ k, x ≠ prune_line k ∧ x ≠ noprune_line k ∧ x ≠ no_base_line k) ∧
    (∀ k1 k2 c1 c2, st.clone_signatures.find k1 = some c1 →
      st.clone_signatures.find k2 = some c2 → k1 < k2 →
      ∃ A B C, emitted st (finished true st)
        = A ++ group_lines st.base_signatures (k1, c1) ++ B
            ++ group_lines st.base_signatures (k2, c2) ++ C) := by
  rw [emitted_finished]
  refine ⟨by simp [finished_lines], ?_, ?_, ?_⟩
  · rw [List.pairwise_map]
    exact st.clone_signatures.ordered.imp (fun h => (key_lt_iff _ _).1 h)
  · intro e _
    obtain ⟨sigs, r, h1, h2, h3⟩ := group_lines_shape st.base_signatures e
    exact ⟨sigs, r, h1, h2, fun x hx k => tag_not_result x (h3 x hx) k⟩
  · intro k1 k2 c1 c2 h1 h2 hlt
    obtain ⟨A, B, C, hs⟩ := groups_in_order (group_lines st.base_signatures)
      st.clone_signatures.entries st.clone_signatures.ordered k1 k2 c1 c2 h1 h2
      ((key_lt_iff _ _).2 hlt)
    refine ⟨"=== Finished processing functions ===\n" :: A, B,
      C ++ ["\n\n#### End dpham34 diagnostics, starting regular GIMPLE dump ####\n\n\n"], ?_⟩
    simp only [finished_lines]
    rw [hs]
    simp [List.append_assoc]

theorem finished_group_order_witness :
    ∃ A B C, emitted scenario_C (finished true scenario_C)
      = A ++ group_lines scenario_C.base_signatures ("bar", [[65, 66, 0]]) ++ B
          ++ group_lines scenario_C.base_signatures ("foo", [[65, 66, 0], [65, 66, 0]]) ++ C :=
  (finished_group_order scenario_C).2.2.2 "bar" "foo" [[65, 66, 0]] [[65, 66, 0], [65, 66, 0]]
    rfl rfl ((key_lt_iff _ _).1 (by decide))

/-! ## Claims on `execute` -/

/-- C3, the claim as stated fails: with a count of 3 (here with empty bodies)
`finished` has been called already after the first visit, and the text written
by the three visits holds no verdict line for `foo`. -/
theorem scenario_D_counterexample :
    (run true ((scenario_D 3 3 3 [] [] []).take 1) State.initial).finished_calls = 1 ∧
    (run true (scenario_D 3 3 3 [] [] []) State.initial).finished_calls = 1 ∧
    prune_line "foo" ∉ (run true (scenario_D 3 3 3 [] [] []) State.initial).dump ∧
    noprune_line "foo" ∉ (run true (scenario_D 3 3 3 [] [] []) State.initial).dump := by
  decide

/-- C3 (amended): in scenario D with a count of 3, `finished` is called once,
at the first visit (counter 3 to 2), when no clone is recorded, so what it writes
holds no verdict line; the resolver visit leaves both tables as they were; the
third visit records the signature of `foo.clone1` as the only clone of `foo`.
With a count of 5 instead `finished` is called at the third visit and not
before, the resolver visit again records nothing, and the third visit writes
exactly: the counter line, the record line, the header, the two signature lines
of one `compare_functions` call on the signatures of `foo` and `foo.clone1`,
the verdict (`PRUNE: foo` when that call returns true, `NOPRUNE: foo`
otherwise) and the trailer. -/
theorem scenario_D_amended (b1 b2 b3 : List basic_block) (n2 n3 : Nat) :
    (run true ((scenario_D 3 n2 n3 b1 b2 b3).take 1) State.initial).finished_calls = 1 ∧
    emitted State.initial (run true ((scenario_D 3 n2 n3 b1 b2 b3).take 1) State.initial)
      = ["Total functions to process: 3\n", "Function counter so far is: 3\n",
         "=== Finished processing functions ===\n",
         "\n\n#### End dpham34 diagnostics, starting regular GIMPLE dump ####\n\n\n"] ∧
    (run true ((scenario_D 3 n2 n3 b1 b2 b3).take 2) State.initial).base_signatures
      = (run true ((scenario_D 3 n2 n3 b1 b2 b3).take 1) State.initial).base_signatures ∧
    (run true ((scenario_D 3 n2 n3 b1 b2 b3).take 2) State.initial).clone_signatures
      = (run true ((scenario_D 3 n2 n3 b1 b2 b3).take 1) State.initial).clone_signatures ∧
    (run true (scenario_D 3 n2 n3 b1 b2 b3) State.initial).clone_signatures.entries
      = [("foo", [get_gimple_signature ⟨"foo.clone1", b3⟩])] ∧
    (run true (scenario_D 3 n2 n3 b1 b2 b3) State.initial).finished_calls = 1 ∧
    (run true ((scenario_D 5 n2 n3 b1 b2 b3).take 2) State.initial).finished_calls = 0 ∧
    (run true (scenario_D 5 n2 n3 b1 b2 b3) State.initial).finished_calls = 1 ∧
    (run true ((scenario_D 5 n2 n3 b1 b2 b3).take 2) State.initial).base_signatures
      = (run true ((scenario_D 5 n2 n3 b1 b2 b3).take 1) State.initial).base_signatures ∧
    (run true ((scenario_D 5 n2 n3 b1 b2 b3).take 2) State.initial).clone_signatures
      = (run true ((scenario_D 5 n2 n3 b1 b2 b3).take 1) State.initial).clone_signatures ∧
    emitted (run true ((scenario_D 5 n2 n3 b1 b2 b3).take 2) State.initial)
        (run true (scenario_D 5 n2 n3 b1 b2 b3) State.initial)
      = ["Function counter so far is: 3\n",
         "=== Recorded cloned function: foo.clone1 (base: foo) ===\n",
         "=== Finished processing functions ===\n"]
        ++ (compare_functions true (get_gimple_signature ⟨"foo", b1⟩)
              (get_gimple_signature ⟨"foo.clone1", b3⟩)).2
        ++ [if (compare_functions true (get_gimple_signature ⟨"foo", b1⟩)
                  (get_gimple_signature ⟨"foo.clone1", b3⟩)).1
            then prune_line "foo" else noprune_line "foo",
            "\n\n#### End dpham34 diagnostics, starting regular GIMPLE dump ####\n\n\n"] := by
  refine ⟨rfl, by with_unfolding_all rfl, rfl, rfl, rfl, rfl, rfl, rfl, rfl, rfl, ?_⟩
  have h : emitted (run true ((scenario_D 5 n2 n3 b1 b2 b3).take 2) State.initial)
        (run true (scenario_D 5 n2 n3 b1 b2 b3) State.initial)
      = ["Function counter so far is: 3\n",
         "=== Recorded cloned function: foo.clone1 (base: foo) ===\n",
         "=== Finished processing functions ===\n"]
        ++ ((group_lines (StdMap.empty.assign "foo" (get_gimple_signature ⟨"foo", b1⟩))
              ("foo", [get_gimple_signature ⟨"foo.clone1", b3⟩]) ++ [])
            ++ ["\n\n#### End dpham34 diagnostics, starting regular GIMPLE dump ####\n\n\n"]) := by
    with_unfolding_all rfl
  rw [h, group_lines_single (StdMap.empty.assign "foo" (get_gimple_signature ⟨"foo", b1⟩))
    "foo" (get_gimple_signature ⟨"foo", b1⟩) (get_gimple_signature ⟨"foo.clone1", b3⟩)
    (by with_unfolding_all rfl)]
  simp

/-- C4, the claim as stated fails: a unit of one function, visited once from
the initial state, never calls `finished` (dumping on or off). -/
theorem finalization_once_counterexample :
    (run false [(1, ⟨"main", [[⟨10, []⟩]]⟩)] State.initial).finished_calls = 0 ∧
    (run true [(1, ⟨"main", [[⟨10, []⟩]]⟩)] State.initial).finished_calls = 0 := by
  decide

/-- C4 (amended): from the initial state, when the `N` functions of a unit
counted as `N` at the first visit are visited once each, `finished` is called
exactly once during the `N` visits provided `N ≥ 3` and the visit number
`N - 2` (index `N - 3`) does not leave through the resolver return: it has not
been called after the first `N - 3` visits and has been called once after
`N - 2` visits; for `N ≤ 2` it is not called during the `N` visits. -/
theorem finalization_once (dump_file : Bool) (visits : List (Nat × function)) (N : Nat)
    (hlen : visits.length = N)
    (hcount : ∀ w, visits.head? = some w → w.1 = N) :
    (3 ≤ N →
      (∀ v, visits[N - 3]? = some v → resolver_return dump_file v.2.name = false) →
      (run dump_file visits State.initial).finished_calls = 1 ∧
      (run dump_file (visits.take (N - 3)) State.initial).finished_calls = 0 ∧
      (run dump_file (visits.take (N - 2)) State.initial).finished_calls = 1) ∧
    (N ≤ 2 → (run dump_file visits State.initial).finished_calls = 0) := by
  have hentry : ∀ w, visits.head? = some w → counter_at_entry w.1 State.initial = (N : Int) := by
    intro w hw
    rw [counter_at_entry_initial, hcount w hw]
  constructor
  · intro hN hslip
    have hlt : N - 3 < visits.length := by omega
    have hv : visits[N - 3]? = some (visits[N - 3]) := List.getElem?_eq_getElem hlt
    have hrr := hslip _ hv
    refine ⟨?_, ?_, ?_⟩
    · rw [run_calls_once dump_file visits State.initial N _ hentry hN (by omega) hv hrr]
      rfl
    · rw [run_calls_high dump_file (visits.take (N - 3)) State.initial N
        (fun w hw => hentry w (head?_take _ _ _ hw))
        (by rw [List.length_take]; omega)]
      rfl
    · have hv2 : (visits.take (N - 2))[N - 3]? = some (visits[N - 3]) := by
        rw [List.getElem?_take_of_lt (by omega)]
        exact hv
      rw [run_calls_once dump_file (visits.take (N - 2)) State.initial N _
        (fun w hw => hentry w (head?_take _ _ _ hw)) hN
        (by rw [List.length_take]; omega) hv2 hrr]
      rfl
  · intro hN
    rw [run_calls_low dump_file visits State.initial N hentry hN (by omega)]
    rfl

theorem finalization_once_witness :
    (run true unit_of_five State.initial).finished_calls = 1 ∧
    (run true (unit_of_five.take 2) State.initial).finished_calls = 0 ∧
    (run true (unit_of_five.take 3) State.initial).finished_calls = 1 :=
  (finalization_once true unit_of_five 5 rfl
    (fun w hw => by cases hw; rfl)).1 (by decide) (fun v hv => by cases hv; decide)

/-- C5, evaluation of the code at the failing input: after `foo` and
`foo.clone1` of a unit counted as 5, the counter is 3; a visit of the clone
`foo.clone2` brings it to 2 and calls `finished`, a visit of `foo.resolver`
with `dump_file` open brings it to 2 as well but returns before the check, so
`finished` is not called then nor at the two visits that follow; with
`dump_file` closed the resolver visit does call `finished`. -/
theorem resolver_return_skips_finished :
    (run true [(5, ⟨"foo", []⟩), (5, ⟨"foo.clone1", []⟩)] State.initial).remaining_funcs = 3 ∧
    (run true [(5, ⟨"foo", []⟩), (5, ⟨"foo.clone1", []⟩), (5, ⟨"foo.clone2", []⟩)]
      State.initial).finished_calls = 1 ∧
    (run true [(5, ⟨"foo", []⟩), (5, ⟨"foo.clone1", []⟩), (5, ⟨"foo.resolver", []⟩)]
      State.initial).finished_calls = 0 ∧
    (run true [(5, ⟨"foo", []⟩), (5, ⟨"foo.clone1", []⟩), (5, ⟨"foo.resolver", []⟩)]
      State.initial).remaining_funcs = 2 ∧
    (run true [(5, ⟨"foo", []⟩), (5, ⟨"foo.clone1", []⟩), (5, ⟨"foo.resolver", []⟩),
      (5, ⟨"bar", []⟩), (5, ⟨"main", []⟩)] State.initial).finished_calls = 0 ∧
    (run false [(5, ⟨"foo", []⟩), (5, ⟨"foo.clone1", []⟩), (5, ⟨"foo.resolver", []⟩)]
      State.initial).finished_calls = 1 := by
  decide

/-- C6: for every state and every function named `base_part.resolver` with no dot
in `base_part`, a visit with `dump_file` open leaves the base table and the
clone table as they were and lowers the counter by exactly one, counted from
its value after the lazy set-up at the start of the visit (the reported number
of defined functions when the counter was still negative, its old value
otherwise); `finished` is not called. -/
theorem execute_resolver_frame (st : State) (defined : Nat) (base_part : String)
    (body : List basic_block) (hnodot : '.' ∉ base_part.data) :
    (execute true defined ⟨base_part ++ "." ++ "resolver", body⟩ st).base_signatures
      = st.base_signatures ∧
    (execute true defined ⟨base_part ++ "." ++ "resolver", body⟩ st).clone_signatures
      = st.clone_signatures ∧
    (execute true defined ⟨base_part ++ "." ++ "resolver", body⟩ st).remaining_funcs
      = (if st.remaining_funcs < 0 then (defined : Int) else st.remaining_funcs) - 1 ∧
    (0 ≤ st.remaining_funcs →
      (execute true defined ⟨base_part ++ "." ++ "resolver", body⟩ st).remaining_funcs
        = st.remaining_funcs - 1) := by
  obtain ⟨h1, h2, _⟩ := resolver_name_split base_part hnodot
  have hf := init_counter_frame true defined st
  have hrem := execute_remaining true defined ⟨base_part ++ "." ++ "resolver", body⟩ st
  refine ⟨?_, ?_, hrem, ?_⟩
  · unfold execute
    simp only [if_true, h1, h2]
    exact hf.1
  · unfold execute
    simp only [if_true, h1, h2]
    exact hf.2.1
  · intro h0
    rw [hrem, counter_at_entry, if_neg (not_lt.2 h0)]

theorem execute_resolver_frame_witness :
    (execute true 7 ⟨"foo" ++ "." ++ "resolver", [[⟨6, []⟩]]⟩ scenario_A).base_signatures
      = scenario_A.base_signatures ∧
    (execute true 7 ⟨"foo" ++ "." ++ "resolver", [[⟨6, []⟩]]⟩ scenario_A).clone_signatures
      = scenario_A.clone_signatures ∧
    (execute true 7 ⟨"foo" ++ "." ++ "resolver", [[⟨6, []⟩]]⟩ scenario_A).remaining_funcs = 1 :=
  ⟨(execute_resolver_frame scenario_A 7 "foo" [[⟨6, []⟩]] (by decide)).1,
    (execute_resolver_frame scenario_A 7 "foo" [[⟨6, []⟩]] (by decide)).2.1,
    (execute_resolver_frame scenario_A 7 "foo" [[⟨6, []⟩]] (by decide)).2.2.1⟩

/-! ## Claims on what a visit records and on the counter -/

/-- C11: for every state and every function whose name has no dot, a visit with
`dump_file` open stores the function's signature in the base table under the
whole name: the new table maps the name to the new signature (whatever was
stored there before) and every other key to what it had. When the visit does
not call `finished` this is the base table after the visit, and the clone table
is as before; when it does (the counter reaches 2), `finished` runs on a state
with that base table and the unchanged clone table. -/
theorem execute_base_record (st : State) (defined : Nat) (name : String)
    (body : List basic_block) (hnodot : '.' ∉ name.data) :
    (st.base_signatures.assign name (get_gimple_signature ⟨name, body⟩)).find name
      = some (get_gimple_signature ⟨name, body⟩) ∧
    (∀ k, k ≠ name →
      (st.base_signatures.assign name (get_gimple_signature ⟨name, body⟩)).find k
        = st.base_signatures.find k) ∧
    (counter_at_entry defined st - 1 ≠ 2 →
      (execute true defined ⟨name, body⟩ st).base_signatures
        = st.base_signatures.assign name (get_gimple_signature ⟨name, body⟩) ∧
      (execute true defined ⟨name, body⟩ st).clone_signatures = st.clone_signatures ∧
      (execute true defined ⟨name, body⟩ st).finished_calls = st.finished_calls) ∧
    (counter_at_entry defined st - 1 = 2 →
      ∃ pre : State,
        pre.base_signatures
          = st.base_signatures.assign name (get_gimple_signature ⟨name, body⟩) ∧
        pre.clone_signatures = st.clone_signatures ∧
        execute true defined ⟨name, body⟩ st = finished true pre) := by
  have heq := execute_base_eq defined ⟨name, body⟩ st (find_dot_none _ hnodot)
  obtain ⟨hb, hc, hcalls, hrem⟩ := entry_state_frame true defined st
  refine ⟨find_assign_self _ _ _, fun k hk => find_assign_ne _ _ _ _ hk, ?_, ?_⟩
  · intro hne
    rw [heq, count_down_not_fired _ _ (by simpa only [hrem] using hne)]
    exact ⟨by simp only [hb], hc, hcalls⟩
  · intro h2
    rw [heq, count_down_fired _ _ (by simpa only [hrem] using h2)]
    refine ⟨_, ?_, ?_, rfl⟩
    · simp only [hb]
    · exact hc

theorem execute_base_record_witness :
    (execute true 7 ⟨"foo", [[⟨6, []⟩]]⟩ scenario_A).base_signatures.find "foo"
      = some [54, 0] ∧
    (execute true 7 ⟨"foo", [[⟨6, []⟩]]⟩ scenario_A).clone_signatures
      = scenario_A.clone_signatures := by
  have h := (execute_base_record scenario_A 7 "foo" [[⟨6, []⟩]] (by decide)).2.2.1
    (by decide)
  exact ⟨by rw [h.1]; rfl, h.2.1⟩

/-- C12: for every state and every function named `base_part.suffix`, with no dot
in `base_part` (so the dot is the first one) and `suffix` other than `resolver`,
a visit with `dump_file` open appends the function's signature to the clone
list of `base_part`: the new table maps `base_part` to its former list (empty
when the key is new) followed by the new signature and every other key to what
it had. When the visit does not call `finished` this is the clone table after
the visit, and the base table is as before; when it does, `finished` runs on a
state with that clone table and the unchanged base table. -/
theorem execute_clone_record (st : State) (defined : Nat) (base_part suffix : String)
    (body : List basic_block) (hnodot : '.' ∉ base_part.data)
    (hsuffix : suffix ≠ "resolver") :
    (st.clone_signatures.push_back base_part
        (get_gimple_signature ⟨base_part ++ "." ++ suffix, body⟩)).find base_part
      = some ((st.clone_signatures.find base_part).getD []
          ++ [get_gimple_signature ⟨base_part ++ "." ++ suffix, body⟩]) ∧
    (∀ k, k ≠ base_part →
      (st.clone_signatures.push_back base_part
        (get_gimple_signature ⟨base_part ++ "." ++ suffix, body⟩)).find k
        = st.clone_signatures.find k) ∧
    (counter_at_entry defined st - 1 ≠ 2 →
      (execute true defined ⟨base_part ++ "." ++ suffix, body⟩ st).clone_signatures
        = st.clone_signatures.push_back base_part
            (get_gimple_signature ⟨base_part ++ "." ++ suffix, body⟩) ∧
      (execute true defined ⟨base_part ++ "." ++ suffix, body⟩ st).base_signatures
        = st.base_signatures ∧
      (execute true defined ⟨base_part ++ "." ++ suffix, body⟩ st).finished_calls
        = st.finished_calls) ∧
    (counter_at_entry defined st - 1 = 2 →
      ∃ pre : State,
        pre.clone_signatures = st.clone_signatures.push_back base_part
            (get_gimple_signature ⟨base_part ++ "." ++ suffix, body⟩) ∧
        pre.base_signatures = st.base_signatures ∧
        execute true defined ⟨base_part ++ "." ++ suffix, body⟩ st = finished true pre) := by
  obtain ⟨hfd, hfrom, hto⟩ := name_split base_part suffix hnodot
  have heq := execute_clone_eq defined ⟨base_part ++ "." ++ suffix, body⟩ st
    base_part.data.length hfd (by rw [hfrom]; exact hsuffix)
  simp only [hto] at heq
  obtain ⟨hb, hc, hcalls, hrem⟩ := entry_state_frame true defined st
  refine ⟨find_push_back_self _ _ _, fun k hk => find_push_back_ne _ _ _ _ hk, ?_, ?_⟩
  · intro hne
    rw [heq, count_down_not_fired _ _ (by simpa only [hrem] using hne)]
    exact ⟨by simp only [hc], hb, hcalls⟩
  · intro h2
    rw [heq, count_down_fired _ _ (by simpa only [hrem] using h2)]
    refine ⟨_, ?_, ?_, rfl⟩
    · simp only [hc]
    · exact hb

theorem execute_clone_record_witness :
    (execute true 7 ⟨"foo" ++ "." ++ "bar.resolver", [[⟨6, []⟩]]⟩ scenario_A).clone_signatures.find
        "foo" = some [[65, 66, 0], [65, 66, 0], [54, 0]] ∧
    (execute true 7 ⟨"foo" ++ "." ++ "resolver.1", [[⟨6, []⟩]]⟩ scenario_A).clone_signatures.find
        "foo" = some [[65, 66, 0], [65, 66, 0], [54, 0]] ∧
    "foo" ++ "." ++ "bar.resolver" = "foo.bar.resolver" ∧
    "foo" ++ "." ++ "resolver.1" = "foo.resolver.1" := by
  have h1 := (execute_clone_record scenario_A 7 "foo" "bar.resolver" [[⟨6, []⟩]]
    (by decide) (by decide)).2.2.1 (by decide)
  have h2 := (execute_clone_record scenario_A 7 "foo" "resolver.1" [[⟨6, []⟩]]
    (by decide) (by decide)).2.2.1 (by decide)
  exact ⟨by rw [h1.1]; rfl, by rw [h2.1]; rfl, by decide, by decide⟩

/-- C13, evaluation of the code at the failing input: a unit counted as 1 at
the first visit and visited three times, the later visits being told 7
functions. The counter is 0 after the first visit and `-1` after the second;
the third visit finds it negative and sets it again, to 7, so it is 6 after
the visit, where the claim (and the comment "Initialized once at the first call
to execute") gives `1 - 3`; the same happens with `dump_file` open. -/
theorem counter_recomputed_at_late_visit :
    (run false [(1, ⟨"main", []⟩)] State.initial).remaining_funcs = 0 ∧
    (run false [(1, ⟨"main", []⟩), (7, ⟨"foo", []⟩)] State.initial).remaining_funcs = -1 ∧
    (run false [(1, ⟨"main", []⟩), (7, ⟨"foo", []⟩), (7, ⟨"bar", []⟩)]
      State.initial).remaining_funcs = 6 ∧
    (run false [(1, ⟨"main", []⟩), (7, ⟨"foo", []⟩), (7, ⟨"bar", []⟩)]
      State.initial).remaining_funcs ≠ (1 : Int) - 3 ∧
    (run true [(1, ⟨"main", []⟩), (7, ⟨"foo", []⟩), (7, ⟨"bar", []⟩)]
      State.initial).remaining_funcs = 6 ∧
    (run true [(1, ⟨"main", []⟩), (7, ⟨"foo", []⟩), (7, ⟨"bar", []⟩)]
      State.initial).remaining_funcs ≠ (1 : Int) - 3 := by
  decide

/-- The counter during the first `N + 1` visits of a run from the initial state
whose first visit is told `N` functions: `N - k` after `k` visits, whatever
counts the later visits are told. -/
theorem counter_after_visits (dump_file : Bool) (visits : List (Nat × function)) (N : Nat)
    (hcount : ∀ w, visits.head? = some w → w.1 = N)
    (hk : 1 ≤ visits.length) (hbound : visits.length ≤ N + 1) :
    (run dump_file visits State.initial).remaining_funcs
      = (N : Int) - (visits.length : Int) :=
  run_remaining dump_file visits State.initial N
    (fun w hw => by rw [counter_at_entry_initial, hcount w hw])
    (fun h => by rw [h] at hk; exact absurd hk (by decide)) hbound

theorem counter_after_visits_witness :
    (run true unit_mixed_counts State.initial).remaining_funcs = (5 : Int) - 6 ∧
    (run true (unit_mixed_counts.take 3) State.initial).remaining_funcs = (5 : Int) - 3 :=
  ⟨counter_after_visits true unit_mixed_counts 5 (fun w hw => by cases hw; rfl)
      (by decide) (by decide),
    counter_after_visits true (unit_mixed_counts.take 3) 5 (fun w hw => by cases hw; rfl)
      (by decide) (by decide)⟩

/-- C17: a visit calls `finished` (once) exactly when the counter is 2 after the
visit and the visit did not leave through the resolver return; otherwise it
does not call it. Hence, in a run from the initial state whose first visit is
told `N` functions, a visit among the first `N + 1` that calls `finished` is
visit number `N - 2` (and `N ≥ 3`), and for `N ≤ 2` no call is made during the
first `N` visits. -/
theorem finalization_trigger :
    (∀ (d : Bool) (n : Nat) (fn : function) (st : State),
      ((execute d n fn st).finished_calls = st.finished_calls + 1 ↔
        (execute d n fn st).remaining_funcs = 2 ∧ resolver_return d fn.name = false) ∧
      ((execute d n fn st).finished_calls = st.finished_calls + 1 ∨
        (execute d n fn st).finished_calls = st.finished_calls)) ∧
    (∀ (d : Bool) (visits : List (Nat × function)) (N j : Nat) (v : Nat × function),
      (∀ w, visits.head? = some w → w.1 = N) → j ≤ N → visits[j]? = some v →
      (run d (visits.take (j + 1)) State.initial).finished_calls
        ≠ (run d (visits.take j) State.initial).finished_calls →
      3 ≤ N ∧ j + 1 = N - 2) ∧
    (∀ (d : Bool) (visits : List (Nat × function)) (N : Nat),
      (∀ w, visits.head? = some w → w.1 = N) → N ≤ 2 →
      (run d (visits.take N) State.initial).finished_calls = 0) := by
  refine ⟨?_, ?_, ?_⟩
  · intro d n fn st
    have hc := execute_calls d n fn st
    have hr := execute_remaining d n fn st
    rw [hr]
    by_cases h : counter_at_entry n st - 1 = 2 ∧ resolver_return d fn.name = false
    · rw [if_pos h] at hc
      exact ⟨⟨fun _ => h, fun _ => hc⟩, Or.inl hc⟩
    · rw [if_neg h] at hc
      refine ⟨⟨fun h1 => ?_, fun h2 => absurd h2 h⟩, Or.inr hc⟩
      rw [hc] at h1
      omega
  · intro d visits N j v hcount hj hv hne
    rw [run_take_succ d visits State.initial j v hv] at hne
    have hc := execute_calls d v.1 v.2 (run d (visits.take j) State.initial)
    rw [entry_counter_at d visits N j v hcount hv hj] at hc
    by_cases h : ((N - j : Nat) : Int) - 1 = 2 ∧ resolver_return d v.2.name = false
    · omega
    · rw [if_neg h, Nat.add_zero] at hc
      exact absurd hc hne
  · intro d visits N hcount hN
    rw [run_calls_low d (visits.take N) State.initial N
      (fun w hw => by rw [counter_at_entry_initial, hcount w (head?_take _ _ _ hw)])
      hN (by rw [List.length_take]; omega)]
    rfl

theorem finalization_trigger_witness :
    ((execute true 3 ⟨"foo", []⟩ State.initial).finished_calls = State.initial.finished_calls + 1) ∧
    (3 ≤ 5 ∧ 2 + 1 = 5 - 2) ∧
    (run true ([(2, ⟨"foo", []⟩), (2, ⟨"foo.v1", []⟩)].take 2) State.initial).finished_calls = 0 :=
  ⟨((finalization_trigger.1 true 3 ⟨"foo", []⟩ State.initial).1).2 (by decide),
    finalization_trigger.2.1 true unit_of_five 5 2 (5, ⟨"foo.clone1", [[⟨6, []⟩]]⟩)
      (fun w hw => by cases hw; rfl) (by decide) (by decide) (by decide),
    finalization_trigger.2.2 true [(2, ⟨"foo", []⟩), (2, ⟨"foo.v1", []⟩)] 2
      (fun w hw => by cases hw; rfl) (by decide)⟩

/-- C16: in every state reachable from the initial state by visits of `execute`
(and the calls of `finished` they make), every key of the clone table has a
non-empty list of signatures: no entry has an empty list and a lookup never
returns the empty list. -/
theorem clone_groups_nonempty (st : State) (hreach : Reachable st) :
    (∀ e ∈ st.clone_signatures.entries, e.2 ≠ []) ∧
    (∀ key clones, st.clone_signatures.find key = some clones → clones ≠ []) := by
  have hinv : clone_lists_nonempty st := by
    induction hreach with
    | initial =>
      intro e he
      simp [State.initial, StdMap.empty] at he
    | visit d n fn st' _ ih => exact execute_nonempty d n fn st' ih
  refine ⟨hinv, ?_⟩
  intro key clones hfind
  exact hinv (key, clones) (find_entry_mem key clones _ hfind)

theorem clone_groups_nonempty_witness :
    (execute true 5 ⟨"foo.clone1", [[⟨6, []⟩]]⟩ State.initial).clone_signatures.find "foo"
      = some [[54, 0]] ∧
    ([[54, 0]] : List (List Nat)) ≠ [] :=
  ⟨rfl,
    (clone_groups_nonempty (execute true 5 ⟨"foo.clone1", [[⟨6, []⟩]]⟩ State.initial)
      (Reachable.visit true 5 ⟨"foo.clone1", [[⟨6, []⟩]]⟩ State.initial
        Reachable.initial)).2 "foo" [[54, 0]] rfl⟩

/-- C18: with `dump_file` closed, for every state and every function (a resolver
name included) a visit writes nothing and records nothing; the counter after
the visit is its value after the lazy set-up minus one (its old value minus one
when it was not negative), and the check is made on it: when it is 2,
`finished` is called and both tables are empty after the visit, otherwise
`finished` is not called and both tables are as they were. -/
theorem execute_closed_frame (st : State) (defined : Nat) (fn : function) :
    (execute false defined fn st).remaining_funcs = counter_at_entry defined st - 1 ∧
    (0 ≤ st.remaining_funcs →
      (execute false defined fn st).remaining_funcs = st.remaining_funcs - 1) ∧
    (execute false defined fn st).dump = st.dump ∧
    (counter_at_entry defined st - 1 = 2 →
      (execute false defined fn st).finished_calls = st.finished_calls + 1 ∧
      (execute false defined fn st).base_signatures = StdMap.empty ∧
      (execute false defined fn st).clone_signatures = StdMap.empty) ∧
    (counter_at_entry defined st - 1 ≠ 2 →
      (execute false defined fn st).finished_calls = st.finished_calls ∧
      (execute false defined fn st).base_signatures = st.base_signatures ∧
      (execute false defined fn st).clone_signatures = st.clone_signatures) := by
  obtain ⟨hb, hc, hcalls, hrem⟩ := entry_state_frame false defined st
  have hr := execute_remaining false defined fn st
  refine ⟨hr, ?_, ?_, ?_, ?_⟩
  · intro h0
    rw [hr, counter_at_entry, if_neg (not_lt.2 h0)]
  · rw [execute_closed_eq, count_down_dump_closed, entry_state_dump_closed]
  · intro h2
    rw [execute_closed_eq, count_down_fired _ _ (by rw [hrem]; exact h2)]
    exact ⟨by simp only [finished, hcalls], rfl, rfl⟩
  · intro hne
    rw [execute_closed_eq, count_down_not_fired _ _ (by rw [hrem]; exact hne)]
    exact ⟨hcalls, hb, hc⟩

theorem execute_closed_frame_witness :
    (execute false 3 ⟨"foo.resolver", []⟩ State.initial).finished_calls = 1 ∧
    (execute false 9 ⟨"foo.resolver", []⟩ scenario_A).clone_signatures
      = scenario_A.clone_signatures ∧
    (execute false 9 ⟨"foo.resolver", []⟩ scenario_A).remaining_funcs = 1 :=
  ⟨((execute_closed_frame State.initial 3 ⟨"foo.resolver", []⟩).2.2.2.1 (by decide)).1,
    ((execute_closed_frame scenario_A 9 ⟨"foo.resolver", []⟩).2.2.2.2 (by decide)).2.2,
    (execute_closed_frame scenario_A 9 ⟨"foo.resolver", []⟩).2.1 (by decide)⟩

/-! ## Claims on the signature extractor and the comparison -/

/-- C8 (sensitivity): for two functions whose instruction kinds all belong to the
host's enumeration, if the flattened ordered kind sequences are different lists
(different length, or a different kind at some position, so also the same kinds
in another order), then `compare_functions` on their signatures returns false,
with dumping on or off. -/
theorem compare_functions_sensitive (dump_file : Bool) (f g : function)
    (hf : ∀ k ∈ kinds f.body, host_kind k) (hg : ∀ k ∈ kinds g.body, host_kind k)
    (hdiff : kinds f.body ≠ kinds g.body) :
    (compare_functions dump_file (get_gimple_signature f) (get_gimple_signature g)).1
      = false := by
  have hne : strcmp (get_gimple_signature f) (get_gimple_signature g) ≠ 0 := by
    intro h
    rw [strcmp_eq_zero_iff, c_str_signature f hf, c_str_signature g hg] at h
    exact hdiff (List.map_injective_iff.2 (fun a b hab => Nat.add_right_cancel hab) h)
  simp [compare_functions, hne]

theorem compare_functions_sensitive_witness :
    (compare_functions true
      (get_gimple_signature ⟨"foo", [[⟨6, [1]⟩, ⟨10, []⟩]]⟩)
      (get_gimple_signature ⟨"foo.v1", [[⟨10, []⟩], [⟨6, [1]⟩]]⟩)).1 = false :=
  compare_functions_sensitive true ⟨"foo", [[⟨6, [1]⟩, ⟨10, []⟩]]⟩
    ⟨"foo.v1", [[⟨10, []⟩], [⟨6, [1]⟩]]⟩ (by decide) (by decide) (by decide)

/-- C9 (coarse equivalence): two functions whose flattened ordered kind
sequences are the same list get equal signatures, whatever the operands of
their statements, and `compare_functions` on them returns true. -/
theorem compare_functions_coarse (dump_file : Bool) (f g : function)
    (hsame : kinds f.body = kinds g.body) :
    get_gimple_signature f = get_gimple_signature g ∧
    (compare_functions dump_file (get_gimple_signature f) (get_gimple_signature g)).1
      = true := by
  have heq : get_gimple_signature f = get_gimple_signature g := by
    rw [get_gimple_signature_eq, get_gimple_signature_eq, hsame]
  refine ⟨heq, ?_⟩
  have h0 : strcmp (get_gimple_signature f) (get_gimple_signature g) = 0 := by
    rw [strcmp_eq_zero_iff, heq]
  simp [compare_functions, h0]

theorem compare_functions_coarse_witness :
    get_gimple_signature ⟨"foo", [[⟨6, [1, 2]⟩, ⟨10, []⟩]]⟩
      = get_gimple_signature ⟨"foo.v1", [[⟨6, [7]⟩, ⟨10, [3]⟩]]⟩ ∧
    (compare_functions true (get_gimple_signature ⟨"foo", [[⟨6, [1, 2]⟩, ⟨10, []⟩]]⟩)
      (get_gimple_signature ⟨"foo.v1", [[⟨6, [7]⟩, ⟨10, [3]⟩]]⟩)).1 = true :=
  compare_functions_coarse true ⟨"foo", [[⟨6, [1, 2]⟩, ⟨10, []⟩]]⟩
    ⟨"foo.v1", [[⟨6, [7]⟩, ⟨10, [3]⟩]]⟩ (by decide)

/-- C10 (layout of a signature): the buffer returned by `get_gimple_signature`
holds one byte per statement, in block order and then statement order, the
byte being the statement kind plus 48 converted to `char`, followed by the
terminator 0. For a kind of the host's enumeration the byte is exactly
`kind + 48` and differs from the terminator, so for a function whose kinds all
belong to the enumeration the C string is the list of the `kind + 48` and its
length is the number of statements; a body without statements gives the empty
string. -/
theorem get_gimple_signature_layout (fn : function) :
    get_gimple_signature fn = (kinds fn.body).map (fun k => to_char (k + 48)) ++ [0] ∧
    (kinds fn.body = [] →
      get_gimple_signature fn = [0] ∧ strlen (get_gimple_signature fn) = 0) ∧
    (∀ k, host_kind k → to_char (k + 48) = k + 48 ∧ to_char (k + 48) ≠ 0) ∧
    ((∀ k ∈ kinds fn.body, host_kind k) →
      get_gimple_signature fn = (kinds fn.body).map (fun k => k + 48) ++ [0] ∧
      c_str (get_gimple_signature fn) = (kinds fn.body).map (fun k => k + 48) ∧
      strlen (get_gimple_signature fn) = (fn.body.flatten).length) := by
  refine ⟨get_gimple_signature_eq fn, ?_, ?_, ?_⟩
  · intro h
    rw [get_gimple_signature_eq, h]
    simp [strlen, c_str]
  · intro k hk
    rw [to_char_kind k hk]
    exact ⟨rfl, by omega⟩
  · intro hfn
    refine ⟨?_, c_str_signature fn hfn, ?_⟩
    · rw [get_gimple_signature_eq, map_to_char_kinds _ hfn]
    · rw [strlen, c_str_signature fn hfn, List.length_map]
      unfold kinds
      rw [List.length_map]

theorem get_gimple_signature_layout_witness :
    get_gimple_signature ⟨"foo", [[⟨6, [1]⟩, ⟨1, []⟩], [], [⟨10, []⟩]]⟩ = [54, 49, 58, 0] ∧
    strlen (get_gimple_signature ⟨"foo", [[⟨6, [1]⟩, ⟨1, []⟩], [], [⟨10, []⟩]]⟩) = 3 := by
  have h := (get_gimple_signature_layout
    ⟨"foo", [[⟨6, [1]⟩, ⟨1, []⟩], [], [⟨10, []⟩]]⟩).2.2.2 (by decide)
  exact ⟨h.1, h.2.2⟩

/-- C19: the signature does not depend on how the statements are split into
basic blocks: two functions for which the concatenation of the blocks' kind
lists is the same list get the same signature; so the bodies `[[a, b], [c]]`
and `[[a], [b, c]]` have the same signature, and inserting an empty block
anywhere in a body does not change the signature. -/
theorem signature_ignores_blocks :
    (∀ f g : function,
      (f.body.map (fun bb => bb.map gimple.code)).flatten
        = (g.body.map (fun bb => bb.map gimple.code)).flatten →
      get_gimple_signature f = get_gimple_signature g) ∧
    (∀ (n n' : String) (a b c : gimple),
      get_gimple_signature ⟨n, [[a, b], [c]]⟩ = get_gimple_signature ⟨n', [[a], [b, c]]⟩) ∧
    (∀ (n : String) (before after : List basic_block),
      get_gimple_signature ⟨n, before ++ [] :: after⟩
        = get_gimple_signature ⟨n, before ++ after⟩) := by
  have main : ∀ f g : function,
      (f.body.map (fun bb => bb.map gimple.code)).flatten
        = (g.body.map (fun bb => bb.map gimple.code)).flatten →
      get_gimple_signature f = get_gimple_signature g := by
    intro f g hcat
    rw [get_gimple_signature_eq, get_gimple_signature_eq, kinds_eq_flatten, kinds_eq_flatten,
      hcat]
  refine ⟨main, ?_, ?_⟩
  · intro n n' a b c
    exact main _ _ (by simp)
  · intro n before after
    exact main _ _ (by simp)

theorem signature_ignores_blocks_witness :
    get_gimple_signature ⟨"foo", [[⟨6, []⟩, ⟨1, []⟩], [⟨10, []⟩]]⟩
      = get_gimple_signature ⟨"foo.v1", [[⟨6, []⟩], [⟨1, []⟩, ⟨10, []⟩]]⟩ ∧
    get_gimple_signature ⟨"foo", [[⟨6, []⟩, ⟨1, []⟩], [⟨10, []⟩]]⟩
      = get_gimple_signature ⟨"foo.v2", [[], [⟨6, []⟩, ⟨1, []⟩], [], [⟨10, []⟩], []]⟩ :=
  ⟨signature_ignores_blocks.1 ⟨"foo", [[⟨6, []⟩, ⟨1, []⟩], [⟨10, []⟩]]⟩
      ⟨"foo.v1", [[⟨6, []⟩], [⟨1, []⟩, ⟨10, []⟩]]⟩ (by decide),
    signature_ignores_blocks.1 ⟨"foo", [[⟨6, []⟩, ⟨1, []⟩], [⟨10, []⟩]]⟩
      ⟨"foo.v2", [[], [⟨6, []⟩, ⟨1, []⟩], [], [⟨10, []⟩], []]⟩ (by decide)⟩

end Dpham34
